import Mathlib

/-! XDG base directories: resolution and search.

A shallow embedding of `xdg.go` (package `xdg`).  The process environment and the
file system are the two pieces of ambient state the package reads; they are made
explicit as a `Host` value that every operation receives.

Strings are Lean strings.  The package and the library routines it calls only ever
inspect the ASCII characters `/`, `.` and `:`; these never occur inside a multi-byte
UTF-8 sequence, so working on characters agrees with Go's byte-wise processing.

The Go standard library routines the package calls (`os.Getenv`, `os.UserHomeDir`,
`os.TempDir`, `os.Stat`, `filepath.IsAbs`, `filepath.Clean`, `filepath.Join`,
`strings.Split`, `strings.Contains`) are modelled with their Unix behaviour, the
platform the package targets.
-/

namespace xdg

/-! ## Ambient state -/

/-- Outcome of `os.Stat`: success, an error that is `os.ErrNotExist`, or any other error
(permission denied, not a directory, ...). -/
inductive StatResult where
  | ok
  | notExist
  | otherError
  deriving DecidableEq, Repr

/-- The state read by the package: the process environment (a variable is unset, or set to
a string) and the result of `os.Stat` at every path. -/
structure Host where
  env : String → Option String
  stat : String → StatResult

/-- Model of `os.Getenv`: the value of the variable, the empty string when it is unset. -/
def Getenv (h : Host) (key : String) : String :=
  match h.env key with
  | some v => v
  | none => ""

/-- Model of `os.Setenv`: the host in which `key` is set to `val`, all else unchanged. -/
def Setenv (h : Host) (key val : String) : Host :=
  { h with env := fun k => if k = key then some val else h.env k }

/-- Model of `os.Unsetenv`: the host in which `key` is unset, all else unchanged. -/
def Unsetenv (h : Host) (key : String) : Host :=
  { h with env := fun k => if k = key then none else h.env k }

/-- Model of `os.UserHomeDir` on Unix: the value of `$HOME` and `true`, or the empty string
and `false` (the error case) when `$HOME` is empty or unset. -/
def UserHomeDir (h : Host) : String × Bool :=
  let v := Getenv h "HOME"
  if v ≠ "" then (v, true) else ("", false)

/-- Model of `os.TempDir` on Unix: `$TMPDIR` if non-empty, else `/tmp`. -/
def TempDir (h : Host) : String :=
  let dir := Getenv h "TMPDIR"
  if dir = "" then "/tmp" else dir

/-! ## Library routines on paths -/

/-- The constant `os.PathListSeparator` on Unix. -/
def PathListSeparator : Char := ':'

/-- The constant `filepath.Separator` on Unix. -/
def Separator : Char := '/'

/-- Model of `strings.Split` for a one-character separator, on character lists: the
segments between the occurrences of `sep`, empty segments kept. -/
def splitChars (sep : Char) : List Char → List (List Char)
  | [] => [[]]
  | c :: cs =>
    if c = sep then [] :: splitChars sep cs
    else
      match splitChars sep cs with
      | [] => [[c]]
      | seg :: segs => (c :: seg) :: segs

/-- Model of `strings.Split(s, string(sep))`. -/
def Split (s : String) (sep : Char) : List String :=
  (splitChars sep s.data).map String.mk

/-- Model of `strings.Contains(s, string(sep))`. -/
def Contains (s : String) (sep : Char) : Bool :=
  s.data.contains sep

/-- Model of `filepath.IsAbs` on Unix: the path starts with a slash. -/
def IsAbs (path : String) : Bool :=
  match path.data with
  | c :: _ => c == Separator
  | [] => false

/-- The backtracking step of `filepath.Clean` on a `..` element.  The output buffer is kept
reversed (its head is the last byte written).  One byte is removed, and further bytes are
removed while the buffer is longer than `dotdot` and the byte just removed is not a
separator. -/
def backtrack (dotdot : Nat) : List Char → List Char
  | [] => []
  | c :: out => if dotdot < out.length ∧ c ≠ Separator then backtrack dotdot out else out

/-- The main loop of `filepath.Clean`.  `rest` is the unread part of the path, `out` the
reversed output buffer and `dotdot` the length below which `..` must not backtrack.  Every
iteration reads at least one byte, so `fuel` equal to the length of `rest` suffices. -/
def cleanLoop (rooted : Bool) : Nat → List Char → List Char → Nat → List Char
  | 0, _, out, _ => out
  | fuel + 1, rest, out, dotdot =>
    match rest with
    | [] => out
    | c :: tl =>
      if c = Separator then
        -- empty path element
        cleanLoop rooted fuel tl out dotdot
      else if c = '.' ∧ (tl = [] ∨ tl.head? = some Separator) then
        -- . element
        cleanLoop rooted fuel tl out dotdot
      else if c = '.' ∧ tl.head? = some '.' ∧
          (tl.tail = [] ∨ tl.tail.head? = some Separator) then
        -- .. element: remove to last separator
        if dotdot < out.length then
          cleanLoop rooted fuel tl.tail (backtrack dotdot out) dotdot
        else if rooted = false then
          let out1 := if 0 < out.length then Separator :: out else out
          let out2 := '.' :: '.' :: out1
          cleanLoop rooted fuel tl.tail out2 out2.length
        else
          cleanLoop rooted fuel tl.tail out dotdot
      else
        -- real path element: add slash if needed, then copy the element
        let out1 :=
          if (rooted = true ∧ out.length ≠ 1) ∨ (rooted = false ∧ out.length ≠ 0) then
            Separator :: out
          else out
        cleanLoop rooted fuel (rest.dropWhile (fun x => x != Separator))
          ((rest.takeWhile (fun x => x != Separator)).reverse ++ out1) dotdot

/-- Model of `filepath.Clean` on Unix, on character lists. -/
def cleanChars (path : List Char) : List Char :=
  match path with
  | [] => ['.']
  | c :: tl =>
    let rooted : Bool := c == Separator
    let out :=
      if rooted then cleanLoop rooted path.length tl [Separator] 1
      else cleanLoop rooted path.length path [] 0
    if out.length = 0 then ['.'] else out.reverse

/-- Model of `filepath.Clean` on Unix. -/
def Clean (path : String) : String :=
  String.mk (cleanChars path.data)

/-- Model of `filepath.Join` on Unix for two elements: the elements from the first non-empty
one on are joined with a separator and cleaned; the empty string when both are empty. -/
def Join (a b : String) : String :=
  if a ≠ "" then Clean (a ++ String.mk [Separator] ++ b)
  else if b ≠ "" then Clean b
  else ""

/-! ## The package -/

/-- The type `dir`, an 8-bit unsigned integer in the source. -/
abbrev dir := Nat

def Data : dir := 0
def Config : dir := 1
def State : dir := 2
def Cache : dir := 3
def Runtime : dir := 4

def dataHome : String := "XGD_DATA_HOME"
def configHome : String := "XDG_CONFIG_HOME"
def stateHome : String := "XDG_STATE_HOME"
def dataDirs : String := "XDG_DATA_DIRS"
def configDirs : String := "XDG_CONFIG_DIRS"
def cacheHome : String := "XDG_CACHE_HOME"
def runtimeDir : String := "XDG_RUNTIME_DIR"

/-- The interface `filter` (through `filterAdapter`): a predicate on strings. -/
abbrev filter := String → Bool

/-- The struct `path`. -/
structure path where
  value : String
  deriving DecidableEq, Repr

/-- The interface `joiner` (through `joinerAdapter`). -/
abbrev joiner := path → String → path

/-- Method `path.require`. -/
def path.require (p : path) (v : filter) : Bool :=
  v p.value

/-- Method `path.join`. -/
def path.join (p : path) (s : String) : path :=
  ⟨Join p.value s⟩

/-- Method `path.split`. -/
def path.split (p : path) : List path :=
  (Split p.value PathListSeparator).foldl (fun result s => result ++ [path.mk s]) []

def isAbsolute (s : String) : Bool :=
  IsAbs s

/-- Function `isExist`: true unless `os.Stat` fails with an error that is `os.ErrNotExist`. -/
def isExist (h : Host) (s : String) : Bool :=
  decide (h.stat s ≠ StatResult.notExist)

def isList (s : String) : Bool :=
  if Contains s PathListSeparator then true else false

def valueOf (h : Host) (key : String) (fallback : String) : String :=
  let val := Getenv h key
  let p : path := ⟨val⟩
  if !p.require isAbsolute then fallback else val

def joinHome (h : Host) (s : String) : String :=
  let home := (UserHomeDir h).1
  Join home s

def DataHomeDir (h : Host) : String := valueOf h dataHome (joinHome h ".local/share")
def ConfigHomeDir (h : Host) : String := valueOf h configHome (joinHome h ".config")
def StateHomeDir (h : Host) : String := valueOf h stateHome (joinHome h ".local/state")
def DataDirs (h : Host) : String := valueOf h dataDirs "/usr/local/share/:/usr/share/"
def ConfigDirs (h : Host) : String := valueOf h configDirs "/etc/xdg"
def CacheHomeDir (h : Host) : String := valueOf h cacheHome (joinHome h ".cache")
def RuntimeDir (h : Host) : String := valueOf h runtimeDir (TempDir h)

/-- The inner loop of `applyFilter`: `keep` stays true until a filter rejects the value, at
which point the loop breaks. -/
def keepLoop (value : String) : List filter → Bool
  | [] => true
  | f :: fs => if !f value then false else keepLoop value fs

def applyFilter (paths : List path) (filters : List filter) : List path :=
  if filters.length = 0 then paths
  else
    paths.foldl (fun result p => if keepLoop p.value filters then result ++ [p] else result) []

def mapJoin (paths : List path) (s : String) (j : joiner) : List path :=
  paths.foldl (fun result p => result ++ [j p s]) []

/-- The first loop of `find`: the candidate paths collected from the base directories. -/
def findPaths (pth : String) (dirs : List String) : List path :=
  dirs.foldl
    (fun paths d =>
      let p : path := ⟨d⟩
      if p.require isList then paths ++ mapJoin p.split pth path.join
      else paths ++ [p.join pth])
    []

def find (h : Host) (pth : String) (dirs : List String) : String × Bool :=
  let paths := findPaths pth dirs
  let paths := applyFilter paths [isAbsolute, isExist h]
  match paths with
  | [] => ("", false)
  | p :: _ => (p.value, true)

def Find (h : Host) (d : dir) (path : String) : String × Bool :=
  if d = Data then find h path [DataHomeDir h, DataDirs h]
  else if d = Config then find h path [ConfigHomeDir h, ConfigDirs h]
  else if d = State then find h path [StateHomeDir h]
  else if d = Cache then find h path [CacheHomeDir h]
  else if d = Runtime then find h path [RuntimeDir h]
  else ("", false)


/-! ## Specification-side notions -/

/-- The preference-ordered candidate list for a relative path and a list of base-directory
strings, as the specification words it: every base directory in order, a list-valued entry
expanded left to right, each joined with the relative path. -/
def candidates (pth : String) : List String → List String
  | [] => []
  | d :: ds =>
    (if Contains d PathListSeparator then (Split d PathListSeparator).map (fun s => Join s pth)
     else [Join d pth]) ++ candidates pth ds

/-- The base-directory strings registered for a kind, in preference order. -/
def baseDirs (h : Host) (d : dir) : List String :=
  if d = Data then [DataHomeDir h, DataDirs h]
  else if d = Config then [ConfigHomeDir h, ConfigDirs h]
  else if d = State then [StateHomeDir h]
  else if d = Cache then [CacheHomeDir h]
  else if d = Runtime then [RuntimeDir h]
  else []

/-- A candidate survives the search filter: it is absolute and it exists. -/
def survives (h : Host) (c : String) : Prop :=
  isAbsolute c = true ∧ isExist h c = true

instance (h : Host) (c : String) : Decidable (survives h c) := by
  unfold survives; infer_instance

/-- The first element of a candidate list that is absolute and exists, with `true`; the
empty string and `false` when there is none. -/
def firstSurvivor (h : Host) : List String → String × Bool
  | [] => ("", false)
  | c :: cs => if isAbsolute c = true ∧ isExist h c = true then (c, true) else firstSurvivor h cs

/-- The variable is unset, empty, or holds a path that is not absolute. -/
def unsetEmptyOrRelative (h : Host) (key : String) : Prop :=
  h.env key = none ∨ h.env key = some "" ∨ ∃ v, h.env key = some v ∧ isAbsolute v = false

/-- Model of `strings.Join(elems, string(sep))`: the elements concatenated with the separator
between them. -/
def JoinSep (elems : List String) (sep : Char) : String :=
  match elems with
  | [] => ""
  | [a] => a
  | a :: b :: rest => a ++ String.mk [sep] ++ JoinSep (b :: rest) sep

/-- The candidate list of the simpler search, as the specification words it: every
base-directory string is split on the path-list separator, whether or not it holds one, and
the relative path is joined onto each segment. -/
def candidatesSplitAll (pth : String) : List String → List String
  | [] => []
  | d :: ds =>
    (Split d PathListSeparator).map (fun s => Join s pth) ++ candidatesSplitAll pth ds

/-- The simpler search: the first absolute and existing element of `candidatesSplitAll`. -/
def findSplitAll (h : Host) (pth : String) (dirs : List String) : String × Bool :=
  firstSurvivor h (candidatesSplitAll pth dirs)

/-- The base-directory segments a search joins the relative path onto: a list-valued string
contributes its segments in order, any other string contributes itself. -/
def segments : List String → List String
  | [] => []
  | d :: ds =>
    (if Contains d PathListSeparator then Split d PathListSeparator else [d]) ++ segments ds

/-- A filesystem entry exists at `s`: the `os.Stat` call on `s` succeeds. -/
def entryExists (h : Host) (s : String) : Prop :=
  h.stat s = StatResult.ok

instance (h : Host) (s : String) : Decidable (entryExists h s) := by
  unfold entryExists; infer_instance

/-- The path `q` lies under the directory `d`: it starts with `d` followed by a
separator. -/
def isUnder (d q : String) : Bool :=
  (d.data ++ [Separator]).isPrefixOf q.data

/-! ## Concrete hosts -/

/-- A host with home `/home/user` and configuration directories `/a:/b`, where `/b` and
`/b/f` are the only existing entries. -/
def hostSearch : Host :=
  { env := fun k =>
      if k = "XDG_CONFIG_DIRS" then some "/a:/b"
      else if k = "HOME" then some "/home/user"
      else none
    stat := fun p => if p = "/b" ∨ p = "/b/f" then StatResult.ok else StatResult.notExist }

/-- A host whose cache home is an absolute path and on which nothing exists. -/
def hostBare : Host :=
  { env := fun k =>
      if k = "XDG_CACHE_HOME" then some "/non/existent/dir"
      else if k = "HOME" then some "/home/user"
      else none
    stat := fun _ => StatResult.notExist }

/-- A host on which one variable holds an absolute path. -/
def hostOverride : Host :=
  { env := fun k => if k = "XDG_CONFIG_HOME" then some "/some/path" else none
    stat := fun _ => StatResult.notExist }

/-- A host on which `XDG_DATA_HOME` holds an absolute path. -/
def hostDataHome : Host :=
  { env := fun k =>
      if k = "XDG_DATA_HOME" then some "/some/data/home"
      else if k = "HOME" then some "/home/user"
      else none
    stat := fun _ => StatResult.notExist }

/-- A host without a home directory, on which `XDG_STATE_HOME` holds a list of two absolute
paths. -/
def hostNoHome : Host :=
  { env := fun k => if k = "XDG_STATE_HOME" then some "/a:/b" else none
    stat := fun _ => StatResult.notExist }

/-- A host on which `XDG_CONFIG_HOME` holds the list `/a:/b` and `XDG_CONFIG_DIRS` is `/c`;
the entries `/a:/b/f` (in the directory named `a:`) and `/c/f` exist, `/a/f` and `/b/f` do
not. -/
def hostListHome : Host :=
  { env := fun k =>
      if k = "XDG_CONFIG_HOME" then some "/a:/b"
      else if k = "XDG_CONFIG_DIRS" then some "/c"
      else none
    stat := fun p =>
      if p = "/a:/b/f" ∨ p = "/c/f" then StatResult.ok else StatResult.notExist }

/-- A host with configuration home `/h` and configuration directories `/a:/b`, where `/a`
does not exist and both `/h/f` and `/b/f` exist. -/
def hostHomeWins : Host :=
  { env := fun k =>
      if k = "XDG_CONFIG_DIRS" then some "/a:/b"
      else if k = "XDG_CONFIG_HOME" then some "/h"
      else none
    stat := fun p =>
      if p = "/h" ∨ p = "/h/f" ∨ p = "/b" ∨ p = "/b/f" then StatResult.ok
      else StatResult.notExist }

/-- A host with home `/home/user` and no XDG variable set, where the data home
`/home/user/.local/share` and `/usr/share` exist. -/
def hostDataHomeExists : Host :=
  { env := fun k => if k = "HOME" then some "/home/user" else none
    stat := fun p =>
      if p = "/home/user/.local/share" ∨ p = "/usr/share" then StatResult.ok
      else StatResult.notExist }

/-- A host with home `/home/user` and no XDG variable set, where `/usr/share` is the only
existing entry. -/
def hostUsrShare : Host :=
  { env := fun k => if k = "HOME" then some "/home/user" else none
    stat := fun p => if p = "/usr/share" then StatResult.ok else StatResult.notExist }

/-- A host on which `/etc/passwd` is a regular file: `os.Stat` succeeds on `/`, `/etc` and
`/etc/passwd`, fails on `/etc/passwd/x` with an error that is not `os.ErrNotExist` (not a
directory), and reports every other path as not existing. -/
def hostNotDir : Host :=
  { env := fun _ => none
    stat := fun p =>
      if p = "/etc/passwd/x" then StatResult.otherError
      else if p = "/" ∨ p = "/etc" ∨ p = "/etc/passwd" then StatResult.ok
      else StatResult.notExist }

/-- A host whose `XDG_CACHE_HOME` is `/x:/y`; the entries `/y`, `/y/app` and
`/y/app/data.db` exist and nothing else does, in particular nothing under `/x:/y`. -/
def hostCacheList : Host :=
  { env := fun k => if k = "XDG_CACHE_HOME" then some "/x:/y" else none
    stat := fun p =>
      if p = "/y" ∨ p = "/y/app" ∨ p = "/y/app/data.db" then StatResult.ok
      else StatResult.notExist }

/-- A host with configuration directories `/a:/b` and home `/home/user`, where `/b` is the
only existing entry: `/a` does not exist and `/b` does not hold `f`. -/
def hostNoFile : Host :=
  { env := fun k =>
      if k = "XDG_CONFIG_DIRS" then some "/a:/b"
      else if k = "HOME" then some "/home/user"
      else none
    stat := fun p => if p = "/b" then StatResult.ok else StatResult.notExist }

/-- A host whose `XDG_CONFIG_DIRS` is `/a:`, a list with a trailing empty segment, and where
`/etc/passwd` is the only existing entry. -/
def hostEmptySegment : Host :=
  { env := fun k =>
      if k = "XDG_CONFIG_DIRS" then some "/a:"
      else if k = "HOME" then some "/home/user"
      else none
    stat := fun p => if p = "/etc/passwd" then StatResult.ok else StatResult.notExist }

/-! ## Loops as list operations -/

theorem foldl_snoc_eq_map {α β : Type} (f : α → β) (l : List α) (acc : List β) :
    l.foldl (fun result x => result ++ [f x]) acc = acc ++ l.map f := by
  induction l generalizing acc with
  | nil => simp
  | cons x xs ih => simp [ih]

theorem mapJoin_eq_map (paths : List path) (s : String) (j : joiner) :
    mapJoin paths s j = paths.map (fun p => j p s) := by
  unfold mapJoin
  rw [foldl_snoc_eq_map (fun p => j p s)]
  simp

theorem split_eq_map (p : path) :
    p.split = (Split p.value PathListSeparator).map path.mk := by
  unfold path.split
  rw [foldl_snoc_eq_map path.mk]
  simp

theorem findPaths_foldl (pth : String) (dirs : List String) (acc : List path) :
    dirs.foldl
      (fun paths d =>
        let p : path := ⟨d⟩
        if p.require isList then paths ++ mapJoin p.split pth path.join
        else paths ++ [p.join pth])
      acc = acc ++ (candidates pth dirs).map path.mk := by
  induction dirs generalizing acc with
  | nil => simp [candidates]
  | cons d ds ih =>
    simp only [List.foldl_cons]
    rw [ih]
    by_cases hl : Contains d PathListSeparator = true
    · simp [candidates, path.require, isList, hl, mapJoin_eq_map, split_eq_map, path.join,
        List.map_map, Function.comp_def]
    · simp [candidates, path.require, isList, hl, path.join]

theorem findPaths_eq (pth : String) (dirs : List String) :
    findPaths pth dirs = (candidates pth dirs).map path.mk := by
  unfold findPaths
  rw [findPaths_foldl]
  simp

theorem keepLoop_eq_all (value : String) (filters : List filter) :
    keepLoop value filters = filters.all (fun f => f value) := by
  induction filters with
  | nil => rfl
  | cons f fs ih =>
    cases hf : f value <;> simp [keepLoop, hf, ih]

theorem foldl_keep_eq_filter {α : Type} (keep : α → Bool) (l : List α) (acc : List α) :
    l.foldl (fun result p => if keep p then result ++ [p] else result) acc
      = acc ++ l.filter keep := by
  induction l generalizing acc with
  | nil => simp
  | cons x xs ih =>
    simp only [List.foldl_cons]
    rw [ih]
    cases hk : keep x <;> simp [List.filter_cons, hk]

theorem applyFilter_eq_filter (paths : List path) (filters : List filter)
    (hne : filters ≠ []) :
    applyFilter paths filters
      = paths.filter (fun p => filters.all (fun f => f p.value)) := by
  unfold applyFilter
  have hlen : ¬ filters.length = 0 := by
    intro h0
    exact hne (List.length_eq_zero.mp h0)
  rw [if_neg hlen]
  have hfold := foldl_keep_eq_filter (fun p : path => keepLoop p.value filters) paths []
  simp only [List.nil_append] at hfold
  rw [hfold]
  congr 1
  funext p
  exact keepLoop_eq_all p.value filters

theorem filter_head_eq_firstSurvivor (h : Host) (l : List String) :
    (match l.filter (fun c => isAbsolute c && isExist h c) with
      | [] => ("", false)
      | c :: _ => (c, true)) = firstSurvivor h l := by
  induction l with
  | nil => rfl
  | cons a as ih =>
    by_cases ha : isAbsolute a = true ∧ isExist h a = true
    · have hb : (isAbsolute a && isExist h a) = true := by simp [ha.1, ha.2]
      simp only [List.filter_cons, hb, if_true, firstSurvivor, if_pos ha]
    · have hb : ¬ (isAbsolute a && isExist h a) = true := by
        simpa [Bool.and_eq_true] using ha
      simp only [List.filter_cons, if_neg hb, firstSurvivor, if_neg ha]
      exact ih

/-- The search returns the first surviving candidate. -/
theorem find_eq (h : Host) (pth : String) (dirs : List String) :
    find h pth dirs = firstSurvivor h (candidates pth dirs) := by
  rw [← filter_head_eq_firstSurvivor]
  unfold find
  simp only [findPaths_eq]
  rw [applyFilter_eq_filter _ _ (by simp)]
  simp only [List.filter_map, List.all_cons, List.all_nil, Bool.and_true, Function.comp_def]
  cases (candidates pth dirs).filter (fun c => isAbsolute c && isExist h c) with
  | nil => rfl
  | cons c cs => rfl

theorem Find_eq_find (h : Host) (d : Nat) (pth : String) (hd : d ≤ 4) :
    Find h d pth = find h pth (baseDirs h d) := by
  have : d = 0 ∨ d = 1 ∨ d = 2 ∨ d = 3 ∨ d = 4 := by omega
  rcases this with rfl | rfl | rfl | rfl | rfl <;> rfl

theorem Find_other (h : Host) (d : Nat) (pth : String) (hd : 4 < d) :
    Find h d pth = ("", false) := by
  unfold Find Data Config State Cache Runtime
  have h0 : d ≠ 0 := by omega
  have h1 : d ≠ 1 := by omega
  have h2 : d ≠ 2 := by omega
  have h3 : d ≠ 3 := by omega
  have h4 : d ≠ 4 := by omega
  simp [h0, h1, h2, h3, h4]

theorem firstSurvivor_found (h : Host) (l : List String) (r : String)
    (hf : firstSurvivor h l = (r, true)) :
    ∃ pre post, l = pre ++ r :: post ∧ survives h r ∧ ∀ c ∈ pre, ¬ survives h c := by
  induction l with
  | nil => simp [firstSurvivor] at hf
  | cons a as ih =>
    by_cases ha : isAbsolute a = true ∧ isExist h a = true
    · rw [firstSurvivor, if_pos ha] at hf
      have hra : a = r := congrArg Prod.fst hf
      subst hra
      exact ⟨[], as, rfl, ha, by simp⟩
    · rw [firstSurvivor, if_neg ha] at hf
      obtain ⟨pre, post, h1, h2, h3⟩ := ih hf
      refine ⟨a :: pre, post, by simp [h1], h2, ?_⟩
      intro c hc
      rcases List.mem_cons.mp hc with rfl | hc
      · exact ha
      · exact h3 c hc

theorem firstSurvivor_none_iff (h : Host) (l : List String) :
    firstSurvivor h l = ("", false) ↔ ∀ c ∈ l, ¬ survives h c := by
  induction l with
  | nil => simp [firstSurvivor]
  | cons a as ih =>
    by_cases ha : isAbsolute a = true ∧ isExist h a = true
    · rw [firstSurvivor, if_pos ha]
      constructor
      · intro hf
        exact absurd (congrArg Prod.snd hf) (by simp)
      · intro hall
        exact absurd ha (hall a (List.mem_cons_self a as))
    · rw [firstSurvivor, if_neg ha, ih]
      constructor
      · intro hall c hc
        rcases List.mem_cons.mp hc with rfl | hc
        · exact ha
        · exact hall c hc
      · intro hall c hc
        exact hall c (List.mem_cons_of_mem a hc)

theorem firstSurvivor_append_of_found (h : Host) (l₁ l₂ : List String) (c : String)
    (hc : c ∈ l₁) (hs : survives h c) :
    firstSurvivor h (l₁ ++ l₂) = firstSurvivor h l₁ := by
  induction l₁ with
  | nil => simp at hc
  | cons a as ih =>
    by_cases ha : isAbsolute a = true ∧ isExist h a = true
    · simp only [List.cons_append, firstSurvivor, if_pos ha]
    · simp only [List.cons_append, firstSurvivor, if_neg ha]
      rcases List.mem_cons.mp hc with rfl | hc
      · exact absurd hs ha
      · exact ih hc

theorem firstSurvivor_append_of_none (h : Host) (l₁ l₂ : List String)
    (hnone : ∀ c ∈ l₁, ¬ survives h c) :
    firstSurvivor h (l₁ ++ l₂) = firstSurvivor h l₂ := by
  induction l₁ with
  | nil => rfl
  | cons a as ih =>
    have ha : ¬ (isAbsolute a = true ∧ isExist h a = true) := hnone a (List.mem_cons_self a as)
    simp only [List.cons_append, firstSurvivor, if_neg ha]
    exact ih fun c hc => hnone c (List.mem_cons_of_mem a hc)

theorem candidates_cons (pth d : String) (ds : List String) :
    candidates pth (d :: ds) = candidates pth [d] ++ candidates pth ds := by
  simp [candidates]

theorem candidates_single (pth d : String) (hd : isList d = false) :
    candidates pth [d] = [Join d pth] := by
  have hc : ¬ Contains d PathListSeparator = true := by
    intro hc
    simp [isList, hc] at hd
  simp [candidates, hc]

/-! ## Properties of the `filepath.Clean` model -/

theorem backtrack_suffix (dd : Nat) (out : List Char) : backtrack dd out <:+ out := by
  induction out with
  | nil => simp [backtrack]
  | cons c out ih =>
    unfold backtrack
    split_ifs
    · exact ih.trans (List.suffix_cons c out)
    · exact List.suffix_cons c out

theorem backtrack_length (dd : Nat) (out : List Char) (h : dd < out.length) :
    dd ≤ (backtrack dd out).length := by
  induction out with
  | nil => simp at h
  | cons c out ih =>
    unfold backtrack
    split_ifs with hc
    · exact ih hc.1
    · simp only [List.length_cons] at h
      omega

theorem getLast?_of_suffix {l₁ l₂ : List Char} (hs : l₁ <:+ l₂) (hne : l₁ ≠ []) :
    l₁.getLast? = l₂.getLast? := by
  obtain ⟨t, rfl⟩ := hs
  cases l₁ with
  | nil => exact absurd rfl hne
  | cons a as =>
    rw [List.getLast?_append, List.getLast?_eq_getLast (a :: as) (by simp)]
    rfl

theorem getLast?_append_ne (x o : List Char) (hne : o ≠ []) :
    (x ++ o).getLast? = o.getLast? :=
  (getLast?_of_suffix (List.suffix_append x o) hne).symm

theorem takeWhile_notSep (l : List Char) :
    ∀ x ∈ l.takeWhile (fun x => x != Separator), x ≠ Separator ∧ x ∈ l := by
  intro x hx
  refine ⟨?_, (List.takeWhile_prefix _).subset hx⟩
  have := List.mem_takeWhile_imp hx
  simpa using this

/-- Every iteration of the loop of `Clean` preserves an invariant of the output buffer that
its three ways of writing preserve: backtracking, appending a `..` element, copying a real
element. -/
theorem cleanLoop_inv (rooted : Bool) (P : Char → Prop) (Inv : List Char → Nat → Prop)
    (hback : ∀ out dd, Inv out dd → dd < out.length → Inv (backtrack dd out) dd)
    (hdots : ∀ out dd, Inv out dd → ¬ dd < out.length → rooted = false →
      Inv ('.' :: '.' :: (if 0 < out.length then Separator :: out else out))
        ('.' :: '.' :: (if 0 < out.length then Separator :: out else out)).length)
    (helem : ∀ out dd c elem, Inv out dd → c ≠ Separator → P c →
      (∀ x ∈ elem, x ≠ Separator ∧ P x) →
      Inv ((c :: elem).reverse ++
        (if (rooted = true ∧ out.length ≠ 1) ∨ (rooted = false ∧ out.length ≠ 0) then
          Separator :: out else out)) dd)
    (fuel : Nat) (rest out : List Char) (dd : Nat)
    (hrest : ∀ x ∈ rest, P x) (hinv : Inv out dd) :
    ∃ dd2, Inv (cleanLoop rooted fuel rest out dd) dd2 := by
  induction fuel generalizing rest out dd with
  | zero => exact ⟨dd, by simpa [cleanLoop] using hinv⟩
  | succ fuel ih =>
    cases rest with
    | nil => exact ⟨dd, by simpa [cleanLoop] using hinv⟩
    | cons c tl =>
      have htl : ∀ x ∈ tl, P x := fun x hx => hrest x (List.mem_cons_of_mem c hx)
      have htl2 : ∀ x ∈ tl.tail, P x := fun x hx => htl x (List.mem_of_mem_tail hx)
      simp only [cleanLoop]
      by_cases h1 : c = Separator
      · rw [if_pos h1]
        exact ih tl out dd htl hinv
      rw [if_neg h1]
      by_cases h2 : c = '.' ∧ (tl = [] ∨ tl.head? = some Separator)
      · rw [if_pos h2]
        exact ih tl out dd htl hinv
      rw [if_neg h2]
      by_cases h3 : c = '.' ∧ tl.head? = some '.' ∧
          (tl.tail = [] ∨ tl.tail.head? = some Separator)
      · rw [if_pos h3]
        by_cases h4 : dd < out.length
        · rw [if_pos h4]
          exact ih tl.tail _ dd htl2 (hback out dd hinv h4)
        rw [if_neg h4]
        by_cases h5 : rooted = false
        · rw [if_pos h5]
          exact ih tl.tail _ _ htl2 (hdots out dd hinv h4 h5)
        · rw [if_neg h5]
          exact ih tl.tail out dd htl2 hinv
      rw [if_neg h3]
      have hc : (c != Separator) = true := by simpa using h1
      rw [List.takeWhile_cons, List.dropWhile_cons, if_pos hc, if_pos hc]
      refine ih _ _ dd ?_ ?_
      · intro x hx
        exact htl x ((List.dropWhile_suffix _).subset hx)
      · refine helem out dd c _ hinv h1 (hrest c (List.mem_cons_self c tl)) ?_
        intro x hx
        exact ⟨(takeWhile_notSep tl x hx).1, htl x (takeWhile_notSep tl x hx).2⟩

/-- The fuel given to the loop of `Clean` is enough: one more unit changes nothing. -/
theorem cleanLoop_fuel (rooted : Bool) (fuel : Nat) (rest out : List Char) (dd : Nat)
    (hlen : rest.length ≤ fuel) :
    cleanLoop rooted (fuel + 1) rest out dd = cleanLoop rooted fuel rest out dd := by
  induction fuel generalizing rest out dd with
  | zero =>
    have : rest = [] := List.length_eq_zero.mp (Nat.le_zero.mp hlen)
    subst this
    simp [cleanLoop]
  | succ fuel ih =>
    cases rest with
    | nil => simp [cleanLoop]
    | cons c tl =>
      have htl : tl.length ≤ fuel := by simpa using hlen
      have htl2 : tl.tail.length ≤ fuel := by
        rw [List.length_tail]; omega
      have hdw : (List.dropWhile (fun x => x != Separator) (c :: tl)).length ≤ fuel
          ∨ c = Separator := by
        by_cases h1 : c = Separator
        · exact Or.inr h1
        · left
          have hc : (c != Separator) = true := by simpa using h1
          rw [List.dropWhile_cons, if_pos hc]
          exact le_trans (List.dropWhile_suffix _).length_le htl
      conv_lhs => rw [cleanLoop]
      conv_rhs => rw [cleanLoop]
      simp only []
      by_cases h1 : c = Separator
      · simp only [if_pos h1]
        exact ih tl out dd htl
      simp only [if_neg h1]
      split_ifs
      all_goals first
        | exact ih _ _ _ htl
        | exact ih _ _ _ htl2
        | exact ih _ _ _ (hdw.resolve_right h1)

/-- The loop of `Clean` returns the same buffer for every amount of fuel from the length of
the unread input on: the amount `cleanChars` passes never cuts the loop short. -/
theorem cleanLoop_fuel_ge (rooted : Bool) (rest out : List Char) (dd : Nat) (k : Nat) :
    cleanLoop rooted (rest.length + k) rest out dd
      = cleanLoop rooted rest.length rest out dd := by
  induction k with
  | zero => rfl
  | succ k ih =>
    rw [← Nat.add_assoc, cleanLoop_fuel rooted (rest.length + k) rest out dd (by omega)]
    exact ih

theorem cleanLoop_rooted (fuel : Nat) (rest out : List Char)
    (hout : out.getLast? = some Separator) :
    (cleanLoop true fuel rest out 1).getLast? = some Separator := by
  have key := cleanLoop_inv true (fun _ => True)
    (fun o d => o.getLast? = some Separator ∧ d = 1) ?_ ?_ ?_ fuel rest out 1
    (fun _ _ => trivial) ⟨hout, rfl⟩
  · exact key.elim fun _ hk => hk.1
  · rintro o d ⟨ho, rfl⟩ hlt
    refine ⟨?_, rfl⟩
    have hlen := backtrack_length 1 o hlt
    have hne : backtrack 1 o ≠ [] := by
      intro he
      rw [he] at hlen
      simp at hlen
    rw [getLast?_of_suffix (backtrack_suffix 1 o) hne, ho]
  · intro o d _ _ hr
    exact absurd hr (by simp)
  · rintro o d c elem ⟨ho, rfl⟩ _ _ _
    refine ⟨?_, rfl⟩
    have hone : o ≠ [] := by
      intro he
      rw [he] at ho
      simp at ho
    obtain ⟨a, as, rfl⟩ := List.exists_cons_of_ne_nil hone
    by_cases hif : (true = true ∧ (a :: as).length ≠ 1) ∨ (true = false ∧ (a :: as).length ≠ 0)
    · rw [if_pos hif, getLast?_append_ne _ _ (by simp), List.getLast?_cons_cons, ho]
    · rw [if_neg hif, getLast?_append_ne _ _ (by simp), ho]

theorem cleanLoop_unrooted (fuel : Nat) (rest out : List Char) (dd : Nat)
    (hout : out.getLast? ≠ some Separator) :
    (cleanLoop false fuel rest out dd).getLast? ≠ some Separator := by
  have key := cleanLoop_inv false (fun _ => True)
    (fun o _ => o.getLast? ≠ some Separator) ?_ ?_ ?_ fuel rest out dd
    (fun _ _ => trivial) hout
  · exact key.elim fun _ hk => hk
  · intro o d ho _
    by_cases hne : backtrack d o = []
    · rw [hne]
      simp
    · rw [getLast?_of_suffix (backtrack_suffix d o) hne]
      exact ho
  · intro o d ho _ _
    cases o with
    | nil => simp [Separator]
    | cons a as =>
      simp only [List.length_cons, Nat.zero_lt_succ, if_true]
      rw [List.getLast?_cons_cons, List.getLast?_cons_cons, List.getLast?_cons_cons]
      exact ho
  · intro o d c elem ho hc _ _
    cases o with
    | nil =>
      simp only [List.length_nil]
      rw [if_neg (by simp), List.append_nil, List.getLast?_reverse, List.head?_cons]
      intro he
      exact hc (Option.some.inj he)
    | cons a as =>
      rw [if_pos (by simp), getLast?_append_ne _ _ (by simp), List.getLast?_cons_cons]
      exact ho

theorem cleanLoop_chars (Q : Char → Prop) (hdot : Q '.') (hsep : Q Separator)
    (rooted : Bool) (fuel : Nat) (rest out : List Char) (dd : Nat)
    (hrest : ∀ x ∈ rest, Q x) (hout : ∀ x ∈ out, Q x) :
    ∀ x ∈ cleanLoop rooted fuel rest out dd, Q x := by
  have key := cleanLoop_inv rooted Q (fun o _ => ∀ x ∈ o, Q x) ?_ ?_ ?_ fuel rest out dd
    hrest hout
  · exact key.elim fun _ hk => hk
  · intro o d ho _ x hx
    exact ho x ((backtrack_suffix d o).subset hx)
  · intro o d ho _ _ x hx
    rcases List.mem_cons.mp hx with rfl | hx
    · exact hdot
    rcases List.mem_cons.mp hx with rfl | hx
    · exact hdot
    split_ifs at hx
    · rcases List.mem_cons.mp hx with rfl | hx
      · exact hsep
      · exact ho x hx
    · exact ho x hx
  · intro o d c elem ho _ hc helem x hx
    rcases List.mem_append.mp hx with hx | hx
    · rw [List.mem_reverse] at hx
      rcases List.mem_cons.mp hx with rfl | hx
      · exact hc
      · exact (helem x hx).2
    · split_ifs at hx
      · rcases List.mem_cons.mp hx with rfl | hx
        · exact hsep
        · exact ho x hx
      · exact ho x hx

/-- The model of `Clean` keeps a path rooted or unrooted. -/
theorem cleanChars_head (p : List Char) :
    (cleanChars p).head? = some Separator ↔ p.head? = some Separator := by
  cases p with
  | nil => simp [cleanChars, Separator]
  | cons c tl =>
    by_cases hc : c = Separator
    · subst hc
      have hr := cleanLoop_rooted (Separator :: tl).length tl [Separator] rfl
      have hne : cleanLoop true (Separator :: tl).length tl [Separator] 1 ≠ [] := by
        intro he
        rw [he] at hr
        simp at hr
      have hlen : ¬ (cleanLoop true (Separator :: tl).length tl [Separator] 1).length = 0 :=
        fun h0 => hne (List.length_eq_zero.mp h0)
      simp only [cleanChars, beq_self_eq_true, if_true, if_neg hlen, List.head?_reverse, hr,
        List.head?_cons]
    · have hb : (c == Separator) = false := by simpa using hc
      have hr := cleanLoop_unrooted (c :: tl).length (c :: tl) [] 0 (by simp)
      simp only [cleanChars, hb, Bool.false_eq_true, if_false, List.head?_cons]
      constructor
      · intro h
        exfalso
        split_ifs at h
        · simp [Separator] at h
        · rw [List.head?_reverse] at h
          exact hr h
      · intro h
        exact absurd (Option.some.inj h) hc

/-- The model of `Clean` writes only characters of its input, dots and separators. -/
theorem cleanChars_chars (Q : Char → Prop) (hdot : Q '.') (hsep : Q Separator)
    (p : List Char) (hp : ∀ x ∈ p, Q x) : ∀ x ∈ cleanChars p, Q x := by
  cases p with
  | nil =>
    intro x hx
    simp only [cleanChars, List.mem_singleton] at hx
    rw [hx]; exact hdot
  | cons c tl =>
    intro x hx
    simp only [cleanChars] at hx
    have htl : ∀ y ∈ tl, Q y := fun y hy => hp y (List.mem_cons_of_mem c hy)
    split_ifs at hx with h1 h2 h3
    · simp only [List.mem_singleton] at hx
      rw [hx]; exact hdot
    · rw [List.mem_reverse] at hx
      refine cleanLoop_chars Q hdot hsep _ _ _ _ _ htl ?_ x hx
      intro y hy
      simp only [List.mem_singleton] at hy
      rw [hy]; exact hsep
    · simp only [List.mem_singleton] at hx
      rw [hx]; exact hdot
    · rw [List.mem_reverse] at hx
      exact cleanLoop_chars Q hdot hsep _ _ _ _ _ hp (by simp) x hx

/-! ## Absolute paths and path lists through `Join` -/

theorem isAbsolute_iff (s : String) :
    isAbsolute s = true ↔ s.data.head? = some Separator := by
  unfold isAbsolute IsAbs
  cases s.data with
  | nil => simp
  | cons c cs => simp

theorem isList_iff (s : String) : isList s = true ↔ PathListSeparator ∈ s.data := by
  unfold isList Contains
  simp

theorem data_ne_nil {s : String} (hs : s ≠ "") : s.data ≠ [] := by
  intro hd
  apply hs
  cases s with
  | mk l =>
    simp only at hd
    subst hd
    rfl

theorem isAbsolute_Clean (s : String) : isAbsolute (Clean s) = true ↔ isAbsolute s = true := by
  rw [isAbsolute_iff, isAbsolute_iff]
  exact cleanChars_head s.data

theorem isAbsolute_Join (a b : String) :
    isAbsolute (Join a b) = true ↔ isAbsolute a = true ∨ (a = "" ∧ isAbsolute b = true) := by
  unfold Join
  by_cases ha : a = ""
  · subst ha
    by_cases hb : b = ""
    · subst hb
      decide
    · have hna : ¬ ("" : String) ≠ "" := by simp
      rw [if_neg hna, if_pos hb, isAbsolute_Clean]
      constructor
      · intro h
        exact Or.inr ⟨rfl, h⟩
      · rintro (h | ⟨_, h⟩)
        · exact absurd h (by decide)
        · exact h
  · rw [if_pos ha, isAbsolute_Clean, isAbsolute_iff, isAbsolute_iff]
    have hd := data_ne_nil ha
    obtain ⟨c, cs, hcs⟩ := List.exists_cons_of_ne_nil hd
    simp only [String.data_append, hcs, List.cons_append, List.head?_cons]
    constructor
    · intro h
      exact Or.inl h
    · rintro (h | ⟨h, _⟩)
      · exact h
      · exact absurd h ha

theorem isList_Clean (s : String) (hs : isList s = false) : isList (Clean s) = false := by
  have hs2 : ∀ x ∈ s.data, x ≠ PathListSeparator := by
    intro x hx hx2
    subst hx2
    have := (isList_iff s).mpr hx
    rw [hs] at this
    exact absurd this (by simp)
  have key := cleanChars_chars (fun x => x ≠ PathListSeparator) (by decide) (by decide)
    s.data hs2
  cases hl : isList (Clean s) with
  | false => rfl
  | true =>
    have := (isList_iff (Clean s)).mp hl
    exact absurd rfl (key _ this)

theorem isList_append (a b : String) :
    isList (a ++ b) = true ↔ isList a = true ∨ isList b = true := by
  simp only [isList_iff, String.data_append, List.mem_append]

theorem isList_Join (a b : String) (ha : isList a = false) (hb : isList b = false) :
    isList (Join a b) = false := by
  unfold Join
  split_ifs
  · apply isList_Clean
    cases hl : isList (a ++ String.mk [Separator] ++ b) with
    | false => rfl
    | true =>
      rw [isList_append, isList_append, ha, hb] at hl
      have hsep : isList (String.mk [Separator]) = false := by decide
      rw [hsep] at hl
      simp at hl
  · exact isList_Clean b hb
  · decide

/-! ## The search returns the first absolute and existing candidate -/

/-- C1: whenever `Find` returns `(r, true)`, `r` is an element of the kind's candidate list
(each base directory in registration order, list-valued entries expanded left to right,
joined with the relative path), `r` is absolute and exists, and every candidate before `r`
in that list fails to be absolute or fails to exist. -/
theorem Find_returns_first_surviving_candidate (h : Host) (d : dir) (pth r : String)
    (hf : Find h d pth = (r, true)) :
    ∃ pre post, candidates pth (baseDirs h d) = pre ++ r :: post ∧
      isAbsolute r = true ∧ isExist h r = true ∧
      ∀ c ∈ pre, isAbsolute c = false ∨ isExist h c = false := by
  by_cases hd : d ≤ 4
  · rw [Find_eq_find h d pth hd, find_eq] at hf
    obtain ⟨pre, post, h1, h2, h3⟩ := firstSurvivor_found h _ r hf
    refine ⟨pre, post, h1, h2.1, h2.2, ?_⟩
    intro c hc
    have hn := h3 c hc
    unfold survives at hn
    cases ha : isAbsolute c with
    | false => exact Or.inl rfl
    | true =>
      cases he : isExist h c with
      | false => exact Or.inr rfl
      | true => exact absurd ⟨ha, he⟩ hn
  · rw [Find_other h d pth (Nat.lt_of_not_le hd)] at hf
    exact absurd (congrArg Prod.snd hf) (by simp)

theorem Find_returns_first_surviving_candidate_witness :
    Find hostSearch Config "f" = ("/b/f", true) ∧
    ∃ pre post, candidates "f" (baseDirs hostSearch Config) = pre ++ "/b/f" :: post ∧
      isAbsolute "/b/f" = true ∧ isExist hostSearch "/b/f" = true ∧
      ∀ c ∈ pre, isAbsolute c = false ∨ isExist hostSearch c = false :=
  ⟨by decide, Find_returns_first_surviving_candidate hostSearch Config "f" "/b/f" (by decide)⟩

/-- The function `isExist` is true where the stat call succeeds. -/
theorem isExist_of_ok (h : Host) (s : String) (hs : h.stat s = StatResult.ok) :
    isExist h s = true := by
  simp [isExist, hs]

/-- The function `isExist` is false where the stat call fails with a not-exist error. -/
theorem isExist_of_notExist (h : Host) (s : String) (hs : h.stat s = StatResult.notExist) :
    isExist h s = false := by
  simp [isExist, hs]

/-- Where the stat call does not fail with another error, `isExist` says whether the entry
exists. -/
theorem isExist_iff_entryExists (h : Host) (s : String)
    (hs : h.stat s ≠ StatResult.otherError) : isExist h s = true ↔ entryExists h s := by
  unfold isExist entryExists
  cases hst : h.stat s with
  | ok => simp
  | notExist => simp
  | otherError => exact absurd hst hs

/-- C2, refuted as stated: with `XDG_CACHE_HOME` set to `/x:/y`, which is absolute and under
which nothing exists, `Find Cache "app/data.db"` returns `/y/app/data.db` with `true`: the
value holds a path-list separator and is searched as the two directories `/x` and `/y`. -/
theorem Find_Cache_list_valued_home_found :
    hostCacheList.env "XDG_CACHE_HOME" = some "/x:/y" ∧
    isAbsolute "/x:/y" = true ∧
    hostCacheList.stat "/x:/y" = StatResult.notExist ∧
    (∀ q : String, isUnder "/x:/y" q = true → hostCacheList.stat q = StatResult.notExist) ∧
    Find hostCacheList Cache "app/data.db" = ("/y/app/data.db", true) ∧
    Find hostCacheList Cache "app/data.db" ≠ ("", false) := by
  refine ⟨by decide, by decide, by decide, ?_, by decide, by decide⟩
  intro q hq
  have hne : ¬ (q = "/y" ∨ q = "/y/app" ∨ q = "/y/app/data.db") := by
    rintro (rfl | rfl | rfl) <;> exact absurd hq (by decide)
  simp only [hostCacheList, if_neg hne]

/-- C2, amended: for each of the five kinds, if `Find` returns the empty string and `false`
then no candidate is both absolute and existing; and on every host where the stat call on
each absolute candidate either succeeds or fails with a not-exist error, `Find` returns the
empty string and `false` exactly when no candidate is both absolute and existing.  In
particular `find "missing/file"` fails on a single base directory for whose joined path the
stat call fails with a not-exist error, and on a single base directory that is not absolute;
and `Find Cache "app/data.db"` fails when `XDG_CACHE_HOME` is an absolute path without
path-list separator for whose joined path the stat call fails with a not-exist error. -/
theorem Find_not_found_iff (h : Host) (pth : String) :
    (∀ d : dir, d ∈ [Data, Config, State, Cache, Runtime] →
      (Find h d pth = ("", false) →
        ∀ c ∈ candidates pth (baseDirs h d),
          ¬ (isAbsolute c = true ∧ entryExists h c)) ∧
      ((∀ c ∈ candidates pth (baseDirs h d),
          isAbsolute c = true → h.stat c ≠ StatResult.otherError) →
        (Find h d pth = ("", false) ↔
          ∀ c ∈ candidates pth (baseDirs h d),
            ¬ (isAbsolute c = true ∧ entryExists h c)))) ∧
    (∀ d0 : String, isList d0 = false →
      h.stat (Join d0 "missing/file") = StatResult.notExist →
      find h "missing/file" [d0] = ("", false)) ∧
    (∀ d0 : String, isList d0 = false → isAbsolute d0 = false →
      find h "missing/file" [d0] = ("", false)) ∧
    (∀ V : String, h.env "XDG_CACHE_HOME" = some V → isAbsolute V = true →
      isList V = false → h.stat (Join V "app/data.db") = StatResult.notExist →
      Find h Cache "app/data.db" = ("", false)) := by
  refine ⟨?_, ?_, ?_, ?_⟩
  · intro d hd
    have hd4 : d ≤ 4 := by
      simp only [List.mem_cons, List.mem_singleton, List.not_mem_nil, or_false] at hd
      rcases hd with rfl | rfl | rfl | rfl | rfl <;> decide
    have hfwd : Find h d pth = ("", false) →
        ∀ c ∈ candidates pth (baseDirs h d),
          ¬ (isAbsolute c = true ∧ entryExists h c) := by
      intro hf c hc hce
      rw [Find_eq_find h d pth hd4, find_eq, firstSurvivor_none_iff] at hf
      exact hf c hc ⟨hce.1, isExist_of_ok h c hce.2⟩
    refine ⟨hfwd, ?_⟩
    intro hstat
    refine ⟨hfwd, ?_⟩
    intro hnone
    rw [Find_eq_find h d pth hd4, find_eq, firstSurvivor_none_iff]
    intro c hc hs
    exact hnone c hc ⟨hs.1, (isExist_iff_entryExists h c (hstat c hc hs.1)).mp hs.2⟩
  · intro d0 hl he
    rw [find_eq, candidates_single _ _ hl, firstSurvivor_none_iff]
    intro c hc hs
    rw [List.mem_singleton] at hc
    subst hc
    have hs2 := hs.2
    rw [isExist_of_notExist h _ he] at hs2
    exact absurd hs2 (by simp)
  · intro d0 hl ha
    rw [find_eq, candidates_single _ _ hl, firstSurvivor_none_iff]
    intro c hc hs
    rw [List.mem_singleton] at hc
    subst hc
    rcases (isAbsolute_Join d0 "missing/file").mp hs.1 with h1 | ⟨_, h1⟩
    · rw [ha] at h1
      exact absurd h1 (by simp)
    · exact absurd h1 (by decide)
  · intro V hV ha hl he
    have hval : CacheHomeDir h = V := by
      simp [CacheHomeDir, valueOf, cacheHome, Getenv, hV, path.require, ha]
    have hF : Find h Cache "app/data.db" = find h "app/data.db" [CacheHomeDir h] := rfl
    rw [hF, hval, find_eq, candidates_single _ _ hl, firstSurvivor_none_iff]
    intro c hc hs
    rw [List.mem_singleton] at hc
    subst hc
    have hs2 := hs.2
    rw [isExist_of_notExist h _ he] at hs2
    exact absurd hs2 (by simp)

theorem Find_not_found_iff_witness :
    Find hostBare Cache "app/data.db" = ("", false) ∧
    find hostBare "missing/file" ["/non/existent/dir"] = ("", false) ∧
    find hostBare "missing/file" ["../non_absolute"] = ("", false) ∧
    (Find hostSearch State "f" = ("", false) ↔
      ∀ c ∈ candidates "f" (baseDirs hostSearch State),
        ¬ (isAbsolute c = true ∧ entryExists hostSearch c)) :=
  ⟨(Find_not_found_iff hostBare "app/data.db").2.2.2 "/non/existent/dir" (by decide)
      (by decide) (by decide) (by decide),
    (Find_not_found_iff hostBare "app/data.db").2.1 "/non/existent/dir" (by decide)
      (by decide),
    (Find_not_found_iff hostBare "app/data.db").2.2.1 "../non_absolute" (by decide)
      (by decide),
    ((Find_not_found_iff hostSearch "f").1 State (by decide)).2 (by decide)⟩

/-! ## The environment resolver -/

/-- C3: `valueOf` returns the variable's value verbatim when that value is an absolute
path, and returns the fallback unchanged, whatever the fallback is, when the variable is
unset, empty, or holds a path that is not absolute. -/
theorem valueOf_spec (h : Host) (name fallback : String) :
    (∀ v : String, h.env name = some v → isAbsolute v = true →
      valueOf h name fallback = v) ∧
    (h.env name = none → valueOf h name fallback = fallback) ∧
    (h.env name = some "" → valueOf h name fallback = fallback) ∧
    (∀ v : String, h.env name = some v → isAbsolute v = false →
      valueOf h name fallback = fallback) := by
  refine ⟨?_, ?_, ?_, ?_⟩
  · intro v hv ha
    simp [valueOf, Getenv, hv, path.require, ha]
  · intro hv
    have he : isAbsolute "" = false := by decide
    simp [valueOf, Getenv, hv, path.require, he]
  · intro hv
    have he : isAbsolute "" = false := by decide
    simp [valueOf, Getenv, hv, path.require, he]
  · intro v hv ha
    simp [valueOf, Getenv, hv, path.require, ha]

theorem valueOf_spec_witness :
    valueOf hostOverride "XDG_CONFIG_HOME" "relative/fallback" = "/some/path" ∧
    valueOf hostOverride "XDG_STATE_HOME" "relative/fallback" = "relative/fallback" :=
  ⟨(valueOf_spec hostOverride "XDG_CONFIG_HOME" "relative/fallback").1 "/some/path"
      (by decide) (by decide),
    (valueOf_spec hostOverride "XDG_STATE_HOME" "relative/fallback").2.1 (by decide)⟩

/-! ## The base directory providers -/

theorem valueOf_of_absolute (h : Host) (key fallback V : String) (hk : h.env key = some V)
    (hV : isAbsolute V = true) : valueOf h key fallback = V := by
  simp [valueOf, Getenv, hk, path.require, hV]

theorem valueOf_of_not_absolute (h : Host) (key fallback : String)
    (hk : isAbsolute (Getenv h key) = false) : valueOf h key fallback = fallback := by
  simp [valueOf, path.require, hk]

theorem Getenv_Setenv (h : Host) (key val : String) : (Setenv h key val).env key = some val := by
  simp [Setenv]

theorem not_absolute_of_unsetEmptyOrRelative (h : Host) (key : String)
    (hk : unsetEmptyOrRelative h key) : isAbsolute (Getenv h key) = false := by
  rcases hk with hk | hk | ⟨v, hk, hv⟩
  · simp only [Getenv, hk]
    decide
  · simp only [Getenv, hk]
    decide
  · simp only [Getenv, hk]
    exact hv

/-- C4, evaluated on a host where `XDG_DATA_HOME` is set to the absolute path
`/some/data/home`: `DataHomeDir` does not return that value but the default under the home
directory, because the variable it reads is spelled `XGD_DATA_HOME`. -/
theorem DataHomeDir_misses_XDG_DATA_HOME :
    hostDataHome.env "XDG_DATA_HOME" = some "/some/data/home" ∧
    isAbsolute "/some/data/home" = true ∧
    DataHomeDir hostDataHome = "/home/user/.local/share" ∧
    DataHomeDir hostDataHome ≠ "/some/data/home" := by
  decide

/-- C5: each of `ConfigHomeDir`, `StateHomeDir`, `DataDirs`, `ConfigDirs`, `CacheHomeDir` and
`RuntimeDir` returns exactly the absolute value `V` on every host where its variable is set
to `V`; in particular right after the variable is set to `V`, whatever was resolved before:
the result follows the current environment. -/
theorem providers_return_absolute_override (h : Host) (V : String)
    (hV : isAbsolute V = true) :
    ((h.env "XDG_CONFIG_HOME" = some V → ConfigHomeDir h = V) ∧
     (h.env "XDG_STATE_HOME" = some V → StateHomeDir h = V) ∧
     (h.env "XDG_DATA_DIRS" = some V → DataDirs h = V) ∧
     (h.env "XDG_CONFIG_DIRS" = some V → ConfigDirs h = V) ∧
     (h.env "XDG_CACHE_HOME" = some V → CacheHomeDir h = V) ∧
     (h.env "XDG_RUNTIME_DIR" = some V → RuntimeDir h = V)) ∧
    (ConfigHomeDir (Setenv h "XDG_CONFIG_HOME" V) = V ∧
     StateHomeDir (Setenv h "XDG_STATE_HOME" V) = V ∧
     DataDirs (Setenv h "XDG_DATA_DIRS" V) = V ∧
     ConfigDirs (Setenv h "XDG_CONFIG_DIRS" V) = V ∧
     CacheHomeDir (Setenv h "XDG_CACHE_HOME" V) = V ∧
     RuntimeDir (Setenv h "XDG_RUNTIME_DIR" V) = V) := by
  refine ⟨⟨?_, ?_, ?_, ?_, ?_, ?_⟩, ?_, ?_, ?_, ?_, ?_, ?_⟩
  · exact fun hk => valueOf_of_absolute h _ _ V hk hV
  · exact fun hk => valueOf_of_absolute h _ _ V hk hV
  · exact fun hk => valueOf_of_absolute h _ _ V hk hV
  · exact fun hk => valueOf_of_absolute h _ _ V hk hV
  · exact fun hk => valueOf_of_absolute h _ _ V hk hV
  · exact fun hk => valueOf_of_absolute h _ _ V hk hV
  · exact valueOf_of_absolute _ _ _ V (Getenv_Setenv h _ V) hV
  · exact valueOf_of_absolute _ _ _ V (Getenv_Setenv h _ V) hV
  · exact valueOf_of_absolute _ _ _ V (Getenv_Setenv h _ V) hV
  · exact valueOf_of_absolute _ _ _ V (Getenv_Setenv h _ V) hV
  · exact valueOf_of_absolute _ _ _ V (Getenv_Setenv h _ V) hV
  · exact valueOf_of_absolute _ _ _ V (Getenv_Setenv h _ V) hV

theorem providers_return_absolute_override_witness :
    isAbsolute "/some/config/:/config/dirs/" = true ∧
    ConfigDirs (Setenv hostBare "XDG_CONFIG_DIRS" "/some/config/:/config/dirs/")
      = "/some/config/:/config/dirs/" ∧
    CacheHomeDir (Setenv (Setenv hostBare "XDG_CACHE_HOME" "/random/cache/home")
      "XDG_CACHE_HOME" "/some/config/:/config/dirs/") = "/some/config/:/config/dirs/" :=
  ⟨by decide,
    (providers_return_absolute_override hostBare "/some/config/:/config/dirs/"
      (by decide)).2.2.2.2.1,
    (providers_return_absolute_override (Setenv hostBare "XDG_CACHE_HOME" "/random/cache/home")
      "/some/config/:/config/dirs/" (by decide)).2.2.2.2.2.1⟩

/-- C6: each of `ConfigHomeDir`, `StateHomeDir`, `DataDirs`, `ConfigDirs`, `CacheHomeDir` and
`RuntimeDir` returns its documented default on every host where its variable is unset, empty
or not an absolute path: the home directory joined with `.config`, with `.local/state`, the
literal `/usr/local/share/:/usr/share/`, the literal `/etc/xdg`, the home directory joined
with `.cache`, and the temp directory. -/
theorem providers_return_default (h : Host) :
    (unsetEmptyOrRelative h "XDG_CONFIG_HOME" →
      ConfigHomeDir h = Join (UserHomeDir h).1 ".config") ∧
    (unsetEmptyOrRelative h "XDG_STATE_HOME" →
      StateHomeDir h = Join (UserHomeDir h).1 ".local/state") ∧
    (unsetEmptyOrRelative h "XDG_DATA_DIRS" →
      DataDirs h = "/usr/local/share/:/usr/share/") ∧
    (unsetEmptyOrRelative h "XDG_CONFIG_DIRS" → ConfigDirs h = "/etc/xdg") ∧
    (unsetEmptyOrRelative h "XDG_CACHE_HOME" →
      CacheHomeDir h = Join (UserHomeDir h).1 ".cache") ∧
    (unsetEmptyOrRelative h "XDG_RUNTIME_DIR" → RuntimeDir h = TempDir h) := by
  refine ⟨?_, ?_, ?_, ?_, ?_, ?_⟩ <;> intro hk <;>
    exact valueOf_of_not_absolute h _ _ (not_absolute_of_unsetEmptyOrRelative h _ hk)

theorem providers_return_default_witness :
    ConfigHomeDir hostBare = "/home/user/.config" ∧
    StateHomeDir hostBare = "/home/user/.local/state" ∧
    DataDirs hostBare = "/usr/local/share/:/usr/share/" ∧
    ConfigDirs hostBare = "/etc/xdg" ∧
    CacheHomeDir (Setenv hostBare "XDG_CACHE_HOME" "rel/cache") = "/home/user/.cache" ∧
    RuntimeDir (Setenv hostBare "XDG_RUNTIME_DIR" "") = "/tmp" :=
  ⟨(providers_return_default hostBare).1 (Or.inl (by decide)),
    (providers_return_default hostBare).2.1 (Or.inl (by decide)),
    (providers_return_default hostBare).2.2.1 (Or.inl (by decide)),
    (providers_return_default hostBare).2.2.2.1 (Or.inl (by decide)),
    (providers_return_default (Setenv hostBare "XDG_CACHE_HOME" "rel/cache")).2.2.2.2.1
      (Or.inr (Or.inr ⟨"rel/cache", by decide, by decide⟩)),
    (providers_return_default (Setenv hostBare "XDG_RUNTIME_DIR" "")).2.2.2.2.2
      (Or.inr (Or.inl (by decide)))⟩

/-! ## Home directories as single absolute paths -/

theorem joinHome_single_absolute (h : Host) (suffix : String)
    (hhome : isAbsolute (UserHomeDir h).1 = true ∧ isList (UserHomeDir h).1 = false)
    (hs : isList suffix = false) :
    isAbsolute (joinHome h suffix) = true ∧ isList (joinHome h suffix) = false :=
  ⟨(isAbsolute_Join _ _).mpr (Or.inl hhome.1), isList_Join _ _ hhome.2 hs⟩

theorem valueOf_single_absolute (h : Host) (key fallback : String)
    (hk : isList (Getenv h key) = false)
    (hf : isAbsolute fallback = true ∧ isList fallback = false) :
    isAbsolute (valueOf h key fallback) = true ∧ isList (valueOf h key fallback) = false := by
  cases ha : isAbsolute (Getenv h key) with
  | false =>
    rw [valueOf_of_not_absolute h key fallback ha]
    exact hf
  | true =>
    have hv : valueOf h key fallback = Getenv h key := by
      simp [valueOf, path.require, ha]
    rw [hv]
    exact ⟨ha, hk⟩

/-- C7, refuted as stated: on a host without a home directory `ConfigHomeDir` returns the
relative path `.config`, and with `XDG_STATE_HOME` set to `/a:/b` the provider `StateHomeDir`
returns that list. -/
theorem home_dirs_not_always_single_absolute :
    ConfigHomeDir hostNoHome = ".config" ∧
    isAbsolute (ConfigHomeDir hostNoHome) = false ∧
    StateHomeDir hostNoHome = "/a:/b" ∧
    isList (StateHomeDir hostNoHome) = true := by
  decide

/-- C7, amended: on every host whose home directory and temp directory are each an absolute
path without path-list separator, and on which none of the five variables read holds a
path-list separator, each of `DataHomeDir`, `ConfigHomeDir`, `StateHomeDir`, `CacheHomeDir`
and `RuntimeDir` returns an absolute path without path-list separator. -/
theorem home_dirs_single_absolute (h : Host)
    (hhome : isAbsolute (UserHomeDir h).1 = true ∧ isList (UserHomeDir h).1 = false)
    (htmp : isAbsolute (TempDir h) = true ∧ isList (TempDir h) = false)
    (hvars : ∀ k ∈ [dataHome, configHome, stateHome, cacheHome, runtimeDir],
      isList (Getenv h k) = false) :
    (isAbsolute (DataHomeDir h) = true ∧ isList (DataHomeDir h) = false) ∧
    (isAbsolute (ConfigHomeDir h) = true ∧ isList (ConfigHomeDir h) = false) ∧
    (isAbsolute (StateHomeDir h) = true ∧ isList (StateHomeDir h) = false) ∧
    (isAbsolute (CacheHomeDir h) = true ∧ isList (CacheHomeDir h) = false) ∧
    (isAbsolute (RuntimeDir h) = true ∧ isList (RuntimeDir h) = false) := by
  refine ⟨?_, ?_, ?_, ?_, ?_⟩
  · exact valueOf_single_absolute h _ _ (hvars dataHome (by simp))
      (joinHome_single_absolute h _ hhome (by decide))
  · exact valueOf_single_absolute h _ _ (hvars configHome (by simp))
      (joinHome_single_absolute h _ hhome (by decide))
  · exact valueOf_single_absolute h _ _ (hvars stateHome (by simp))
      (joinHome_single_absolute h _ hhome (by decide))
  · exact valueOf_single_absolute h _ _ (hvars cacheHome (by simp))
      (joinHome_single_absolute h _ hhome (by decide))
  · exact valueOf_single_absolute h _ _ (hvars runtimeDir (by simp)) htmp

theorem home_dirs_single_absolute_witness :
    (isAbsolute (UserHomeDir hostBare).1 = true ∧ isList (UserHomeDir hostBare).1 = false) ∧
    (isAbsolute (TempDir hostBare) = true ∧ isList (TempDir hostBare) = false) ∧
    (∀ k ∈ [dataHome, configHome, stateHome, cacheHome, runtimeDir],
      isList (Getenv hostBare k) = false) ∧
    (isAbsolute (DataHomeDir hostBare) = true ∧ isList (DataHomeDir hostBare) = false) ∧
    (isAbsolute (ConfigHomeDir hostBare) = true ∧ isList (ConfigHomeDir hostBare) = false) ∧
    (isAbsolute (StateHomeDir hostBare) = true ∧ isList (StateHomeDir hostBare) = false) ∧
    (isAbsolute (CacheHomeDir hostBare) = true ∧ isList (CacheHomeDir hostBare) = false) ∧
    (isAbsolute (RuntimeDir hostBare) = true ∧ isList (RuntimeDir hostBare) = false) :=
  ⟨by decide, by decide, by decide,
    home_dirs_single_absolute hostBare (by decide) (by decide) (by decide)⟩

/-! ## Home before the directory list -/

theorem find_pair (h : Host) (p home dirs : String) :
    (candidates p [home, dirs] = candidates p [home] ++ candidates p [dirs]) ∧
    (isList home = false → isAbsolute (Join home p) = true →
      isExist h (Join home p) = true → find h p [home, dirs] = (Join home p, true)) ∧
    ((∃ c ∈ candidates p [home], isAbsolute c = true ∧ isExist h c = true) →
      find h p [home, dirs] = find h p [home]) ∧
    ((∀ c ∈ candidates p [home], ¬ (isAbsolute c = true ∧ isExist h c = true)) →
      find h p [home, dirs] = find h p [dirs]) := by
  refine ⟨candidates_cons p home [dirs], ?_, ?_, ?_⟩
  · intro hl ha he
    rw [find_eq, candidates_cons, candidates_single _ _ hl]
    simp only [List.singleton_append, firstSurvivor, if_pos (And.intro ha he)]
  · rintro ⟨c, hc, hs⟩
    rw [find_eq, find_eq, candidates_cons]
    exact firstSurvivor_append_of_found h _ _ c hc hs
  · intro hnone
    rw [find_eq, find_eq, candidates_cons]
    exact firstSurvivor_append_of_none h _ _ hnone

/-- C8, refuted as stated: with `XDG_CONFIG_HOME` holding the list `/a:/b`, the path
`ConfigHomeDir()` joined with `f` is absolute and exists, yet `Find Config "f"` returns the
path `/c/f` taken from `ConfigDirs()`. -/
theorem Find_home_joined_not_returned :
    isAbsolute (Join (ConfigHomeDir hostListHome) "f") = true ∧
    isExist hostListHome (Join (ConfigHomeDir hostListHome) "f") = true ∧
    ConfigDirs hostListHome = "/c" ∧
    Find hostListHome Config "f" = ("/c/f", true) ∧
    Find hostListHome Config "f" ≠ (Join (ConfigHomeDir hostListHome) "f", true) := by
  decide

/-- C8, amended: for kind Data (resp. Config) the candidate list is that of the home value
followed by that of the dirs value.  If the home value holds no path-list separator and the
home value joined with `p` is absolute and exists, `Find` returns exactly that path with
`true`, whatever the dirs value is.  If some candidate of the home value is absolute and
exists, `Find` returns what the search of the home value alone returns; only when every
candidate of the home value fails does it return what the search of the dirs value
returns. -/
theorem Find_home_before_dirs (h : Host) (p : String) :
    ((candidates p (baseDirs h Data)
        = candidates p [DataHomeDir h] ++ candidates p [DataDirs h]) ∧
     (isList (DataHomeDir h) = false → isAbsolute (Join (DataHomeDir h) p) = true →
        isExist h (Join (DataHomeDir h) p) = true →
        Find h Data p = (Join (DataHomeDir h) p, true)) ∧
     ((∃ c ∈ candidates p [DataHomeDir h], isAbsolute c = true ∧ isExist h c = true) →
        Find h Data p = find h p [DataHomeDir h]) ∧
     ((∀ c ∈ candidates p [DataHomeDir h], ¬ (isAbsolute c = true ∧ isExist h c = true)) →
        Find h Data p = find h p [DataDirs h])) ∧
    ((candidates p (baseDirs h Config)
        = candidates p [ConfigHomeDir h] ++ candidates p [ConfigDirs h]) ∧
     (isList (ConfigHomeDir h) = false → isAbsolute (Join (ConfigHomeDir h) p) = true →
        isExist h (Join (ConfigHomeDir h) p) = true →
        Find h Config p = (Join (ConfigHomeDir h) p, true)) ∧
     ((∃ c ∈ candidates p [ConfigHomeDir h], isAbsolute c = true ∧ isExist h c = true) →
        Find h Config p = find h p [ConfigHomeDir h]) ∧
     ((∀ c ∈ candidates p [ConfigHomeDir h], ¬ (isAbsolute c = true ∧ isExist h c = true)) →
        Find h Config p = find h p [ConfigDirs h])) :=
  ⟨find_pair h p (DataHomeDir h) (DataDirs h), find_pair h p (ConfigHomeDir h) (ConfigDirs h)⟩

theorem Find_home_before_dirs_witness :
    isList (ConfigHomeDir hostHomeWins) = false ∧
    isAbsolute (Join (ConfigHomeDir hostHomeWins) "f") = true ∧
    isExist hostHomeWins (Join (ConfigHomeDir hostHomeWins) "f") = true ∧
    Find hostHomeWins Config "f" = (Join (ConfigHomeDir hostHomeWins) "f", true) ∧
    Find hostSearch Config "f" = find hostSearch "f" [ConfigDirs hostSearch] :=
  ⟨by decide, by decide, by decide,
    (Find_home_before_dirs hostHomeWins "f").2.2.1 (by decide) (by decide) (by decide),
    (Find_home_before_dirs hostSearch "f").2.2.2.2 (by decide)⟩

/-! ## Overrides that are ignored, and list-valued directories -/

/-- C9: for every value `r` that is not absolute, `Find State x` with `XDG_STATE_HOME` set
to `r` returns what it returns on the same host with `XDG_STATE_HOME` unset, namely the
search of the single base directory made of the home directory joined with
`.local/state`. -/
theorem Find_State_ignores_relative_override (h : Host) (r x : String)
    (hr : isAbsolute r = false) :
    Find (Setenv h "XDG_STATE_HOME" r) State x
      = Find (Unsetenv h "XDG_STATE_HOME") State x ∧
    Find (Setenv h "XDG_STATE_HOME" r) State x
      = find h x [Join (UserHomeDir h).1 ".local/state"] := by
  have hset : StateHomeDir (Setenv h "XDG_STATE_HOME" r)
      = Join (UserHomeDir h).1 ".local/state" := by
    have h1 : Getenv (Setenv h "XDG_STATE_HOME" r) stateHome = r := by
      simp [Getenv, Setenv, stateHome]
    have h2 : UserHomeDir (Setenv h "XDG_STATE_HOME" r) = UserHomeDir h := by
      have hne : ¬ ("HOME" : String) = "XDG_STATE_HOME" := by decide
      simp [UserHomeDir, Getenv, Setenv, hne]
    unfold StateHomeDir
    rw [valueOf_of_not_absolute _ _ _ (by rw [h1]; exact hr)]
    unfold joinHome
    rw [h2]
  have hunset : StateHomeDir (Unsetenv h "XDG_STATE_HOME")
      = Join (UserHomeDir h).1 ".local/state" := by
    have h1 : Getenv (Unsetenv h "XDG_STATE_HOME") stateHome = "" := by
      simp [Getenv, Unsetenv, stateHome]
    have h2 : UserHomeDir (Unsetenv h "XDG_STATE_HOME") = UserHomeDir h := by
      have hne : ¬ ("HOME" : String) = "XDG_STATE_HOME" := by decide
      simp [UserHomeDir, Getenv, Unsetenv, hne]
    unfold StateHomeDir
    rw [valueOf_of_not_absolute _ _ _ (by rw [h1]; decide)]
    unfold joinHome
    rw [h2]
  have hF1 : Find (Setenv h "XDG_STATE_HOME" r) State x
      = find h x [StateHomeDir (Setenv h "XDG_STATE_HOME" r)] := rfl
  have hF2 : Find (Unsetenv h "XDG_STATE_HOME") State x
      = find h x [StateHomeDir (Unsetenv h "XDG_STATE_HOME")] := rfl
  rw [hF1, hF2, hset, hunset]
  exact ⟨rfl, rfl⟩

theorem Find_State_ignores_relative_override_witness :
    isAbsolute "rel/path" = false ∧
    Find (Setenv hostBare "XDG_STATE_HOME" "rel/path") State "x"
      = Find (Unsetenv hostBare "XDG_STATE_HOME") State "x" ∧
    Find (Setenv hostBare "XDG_STATE_HOME" "rel/path") State "x"
      = find hostBare "x" [Join (UserHomeDir hostBare).1 ".local/state"] :=
  ⟨by decide, Find_State_ignores_relative_override hostBare "rel/path" "x" (by decide)⟩

/-- C10, refuted as stated: with `XDG_CONFIG_DIRS` set to `/a:/b`, where `/b` exists and
`/a` does not, `Find Config "f"` returns `/h/f` when the configuration home `/h` holds `f`,
although `/b/f` exists too: the home value is searched before the directory list.  And
where `/b` exists but does not hold `f`, it returns the empty string and `false`. -/
theorem Find_Config_home_candidate_wins :
    (hostHomeWins.env "XDG_CONFIG_DIRS" = some "/a:/b" ∧
      hostHomeWins.stat "/b" = StatResult.ok ∧
      hostHomeWins.stat "/b/f" = StatResult.ok ∧
      hostHomeWins.stat "/a" = StatResult.notExist ∧
      hostHomeWins.stat "/a/f" = StatResult.notExist ∧
      Find hostHomeWins Config "f" = ("/h/f", true) ∧
      Find hostHomeWins Config "f" ≠ ("/b/f", true)) ∧
    (hostNoFile.env "XDG_CONFIG_DIRS" = some "/a:/b" ∧
      hostNoFile.stat "/b" = StatResult.ok ∧
      hostNoFile.stat "/a" = StatResult.notExist ∧
      Find hostNoFile Config "f" = ("", false)) := by
  decide

/-- C10, amended: with `XDG_CONFIG_DIRS` set to `/a:/b`, where `/a` does not exist, so that
the stat call fails with a not-exist error on every path under `/a`, `Find Config "f"` never
returns a path under `/a`; and it returns `/b/f` with `true` whenever `/b/f` exists and, for
every absolute candidate of the configuration home, the stat call fails with a not-exist
error. -/
theorem Find_Config_skips_missing_dir (h : Host)
    (hdirs : h.env "XDG_CONFIG_DIRS" = some "/a:/b")
    (ha : ∀ q : String, isUnder "/a" q = true → h.stat q = StatResult.notExist) :
    (∀ r : String, Find h Config "f" = (r, true) → isUnder "/a" r = false) ∧
    (entryExists h "/b/f" →
      (∀ c ∈ candidates "f" [ConfigHomeDir h],
        isAbsolute c = true → h.stat c = StatResult.notExist) →
      Find h Config "f" = ("/b/f", true)) := by
  have hval : ConfigDirs h = "/a:/b" := valueOf_of_absolute h _ _ _ hdirs (by decide)
  have hcand : candidates "f" ["/a:/b"] = ["/a/f", "/b/f"] := by decide
  have hF : Find h Config "f" = find h "f" [ConfigHomeDir h, ConfigDirs h] := rfl
  constructor
  · intro r hf
    rw [hF, find_eq] at hf
    obtain ⟨_, _, _, hs, _⟩ := firstSurvivor_found h _ _ hf
    cases hu : isUnder "/a" r with
    | false => rfl
    | true =>
      have hs2 := hs.2
      rw [isExist_of_notExist h r (ha r hu)] at hs2
      exact absurd hs2 (by simp)
  · intro hb hhome
    have hnone : ∀ c ∈ candidates "f" [ConfigHomeDir h],
        ¬ (isAbsolute c = true ∧ isExist h c = true) := by
      intro c hc hs
      have hs2 := hs.2
      rw [isExist_of_notExist h c (hhome c hc hs.1)] at hs2
      exact absurd hs2 (by simp)
    rw [hF, (find_pair h "f" (ConfigHomeDir h) (ConfigDirs h)).2.2.2 hnone, hval, find_eq,
      hcand]
    have hna : ¬ (isAbsolute "/a/f" = true ∧ isExist h "/a/f" = true) := by
      intro hc
      have hc2 := hc.2
      rw [isExist_of_notExist h "/a/f" (ha "/a/f" (by decide))] at hc2
      exact absurd hc2 (by simp)
    have hab : isAbsolute "/b/f" = true := by decide
    simp only [firstSurvivor, if_neg hna, if_pos (And.intro hab (isExist_of_ok h "/b/f" hb))]

theorem Find_Config_skips_missing_dir_witness :
    hostSearch.env "XDG_CONFIG_DIRS" = some "/a:/b" ∧
    (∀ q : String, isUnder "/a" q = true → hostSearch.stat q = StatResult.notExist) ∧
    entryExists hostSearch "/b/f" ∧
    isUnder "/a" "/b/f" = false ∧
    Find hostSearch Config "f" = ("/b/f", true) := by
  have ha : ∀ q : String, isUnder "/a" q = true →
      hostSearch.stat q = StatResult.notExist := by
    intro q hq
    have hne : ¬ (q = "/b" ∨ q = "/b/f") := by
      rintro (rfl | rfl) <;> exact absurd hq (by decide)
    simp only [hostSearch, if_neg hne]
  exact ⟨by decide, ha, by decide,
    (Find_Config_skips_missing_dir hostSearch (by decide) ha).1 "/b/f" (by decide),
    (Find_Config_skips_missing_dir hostSearch (by decide) ha).2 (by decide) (by decide)⟩

/-! ## The default data directories -/

/-- C11, refuted as stated: on a host where `/usr/share` exists, `XDG_DATA_DIRS` is unset and
`/usr/local/share` does not exist, `Find Data ""` returns the data home
`/home/user/.local/share`, which exists and is searched before the directory list. -/
theorem Find_Data_empty_returns_data_home :
    hostDataHomeExists.stat "/usr/share" = StatResult.ok ∧
    hostDataHomeExists.env "XDG_DATA_DIRS" = none ∧
    hostDataHomeExists.stat "/usr/local/share" = StatResult.notExist ∧
    hostDataHomeExists.stat "/home/user/.local/share" = StatResult.ok ∧
    Find hostDataHomeExists Data "" = ("/home/user/.local/share", true) ∧
    Find hostDataHomeExists Data "" ≠ ("/usr/share", true) := by
  decide

/-- C11, amended: on every host where `/usr/share` exists, `XDG_DATA_DIRS` is unset and, for
every absolute candidate of the data home, the stat call fails with a not-exist error,
`Find Data ""` returns `/usr/local/share` with `true` if `/usr/local/share` exists, and
`/usr/share` with `true` if the stat call on `/usr/local/share` fails with a not-exist
error: the first existing entry of the default list, the trailing separator removed by the
join. -/
theorem Find_Data_empty_default_dirs (h : Host)
    (hunset : h.env "XDG_DATA_DIRS" = none)
    (hshare : entryExists h "/usr/share")
    (hhome : ∀ c ∈ candidates "" [DataHomeDir h],
      isAbsolute c = true → h.stat c = StatResult.notExist) :
    (entryExists h "/usr/local/share" →
      Find h Data "" = ("/usr/local/share", true)) ∧
    (h.stat "/usr/local/share" = StatResult.notExist →
      Find h Data "" = ("/usr/share", true)) ∧
    candidates "" [DataDirs h] = ["/usr/local/share", "/usr/share"] := by
  have hval : DataDirs h = "/usr/local/share/:/usr/share/" := by
    apply valueOf_of_not_absolute
    simp only [Getenv, dataDirs, hunset]
    decide
  have hcand : candidates "" ["/usr/local/share/:/usr/share/"]
      = ["/usr/local/share", "/usr/share"] := by decide
  have hF : Find h Data "" = find h "" [DataHomeDir h, DataDirs h] := rfl
  have hnone : ∀ c ∈ candidates "" [DataHomeDir h],
      ¬ (isAbsolute c = true ∧ isExist h c = true) := by
    intro c hc hs
    have hs2 := hs.2
    rw [isExist_of_notExist h c (hhome c hc hs.1)] at hs2
    exact absurd hs2 (by simp)
  have hstep : Find h Data "" = firstSurvivor h ["/usr/local/share", "/usr/share"] := by
    rw [hF, (find_pair h "" (DataHomeDir h) (DataDirs h)).2.2.2 hnone, hval, find_eq, hcand]
  have hal : isAbsolute "/usr/local/share" = true := by decide
  have hau : isAbsolute "/usr/share" = true := by decide
  refine ⟨?_, ?_, ?_⟩
  · intro hl
    rw [hstep]
    simp only [firstSurvivor, if_pos (And.intro hal (isExist_of_ok h _ hl))]
  · intro hl
    have hnl : ¬ (isAbsolute "/usr/local/share" = true ∧
        isExist h "/usr/local/share" = true) := by
      intro hc
      have hc2 := hc.2
      rw [isExist_of_notExist h _ hl] at hc2
      exact absurd hc2 (by simp)
    rw [hstep]
    simp only [firstSurvivor, if_neg hnl, if_pos (And.intro hau (isExist_of_ok h _ hshare))]
  · rw [hval, hcand]

theorem Find_Data_empty_default_dirs_witness :
    hostUsrShare.env "XDG_DATA_DIRS" = none ∧
    entryExists hostUsrShare "/usr/share" ∧
    hostUsrShare.stat "/usr/local/share" = StatResult.notExist ∧
    (∀ c ∈ candidates "" [DataHomeDir hostUsrShare],
      isAbsolute c = true → hostUsrShare.stat c = StatResult.notExist) ∧
    Find hostUsrShare Data "" = ("/usr/share", true) :=
  ⟨by decide, by decide, by decide, by decide,
    (Find_Data_empty_default_dirs hostUsrShare (by decide) (by decide) (by decide)).2.1
      (by decide)⟩

/-! ## Splitting on the path-list separator -/

theorem splitChars_ne_nil (sep : Char) (l : List Char) : splitChars sep l ≠ [] := by
  cases l with
  | nil => simp [splitChars]
  | cons c cs =>
    unfold splitChars
    split_ifs
    · simp
    · cases splitChars sep cs <;> simp

theorem splitChars_length (sep : Char) (l : List Char) :
    (splitChars sep l).length = l.count sep + 1 := by
  induction l with
  | nil => simp [splitChars]
  | cons c cs ih =>
    unfold splitChars
    by_cases hc : c = sep
    · subst hc
      rw [if_pos rfl, List.length_cons, ih, List.count_cons_self]
    · rw [if_neg hc, List.count_cons_of_ne (fun he => hc he.symm)]
      cases hs : splitChars sep cs with
      | nil => exact absurd hs (splitChars_ne_nil sep cs)
      | cons seg segs =>
        rw [hs] at ih
        simpa using ih

theorem splitChars_no_sep (sep : Char) (l : List Char) :
    ∀ seg ∈ splitChars sep l, sep ∉ seg := by
  induction l with
  | nil =>
    intro seg hseg
    simp only [splitChars, List.mem_singleton] at hseg
    subst hseg
    simp
  | cons c cs ih =>
    intro seg hseg
    unfold splitChars at hseg
    by_cases hc : c = sep
    · rw [if_pos hc] at hseg
      rcases List.mem_cons.mp hseg with rfl | hseg
      · simp
      · exact ih seg hseg
    · rw [if_neg hc] at hseg
      cases hs : splitChars sep cs with
      | nil => exact absurd hs (splitChars_ne_nil sep cs)
      | cons seg0 segs =>
        rw [hs] at hseg ih
        rcases List.mem_cons.mp hseg with rfl | hseg
        · intro hmem
          rcases List.mem_cons.mp hmem with rfl | hmem
          · exact hc rfl
          · exact ih seg0 (List.mem_cons_self seg0 segs) hmem
        · exact ih seg (List.mem_cons_of_mem seg0 hseg)

theorem splitChars_of_not_mem (sep : Char) (l : List Char) (hl : sep ∉ l) :
    splitChars sep l = [l] := by
  induction l with
  | nil => rfl
  | cons c cs ih =>
    have hc : ¬ c = sep := fun hc => hl (hc ▸ List.mem_cons_self c cs)
    have hcs : sep ∉ cs := fun hm => hl (List.mem_cons_of_mem c hm)
    unfold splitChars
    rw [if_neg hc, ih hcs]

theorem JoinSep_splitChars (sep : Char) (l : List Char) :
    (JoinSep ((splitChars sep l).map String.mk) sep).data = l := by
  induction l with
  | nil => rfl
  | cons c cs ih =>
    unfold splitChars
    by_cases hc : c = sep
    · subst hc
      rw [if_pos rfl]
      cases hs : splitChars c cs with
      | nil => exact absurd hs (splitChars_ne_nil c cs)
      | cons seg segs =>
        rw [hs] at ih
        simp only [List.map_cons, JoinSep, String.data_append] at ih ⊢
        rw [ih]
        rfl
    · rw [if_neg hc]
      cases hs : splitChars sep cs with
      | nil => exact absurd hs (splitChars_ne_nil sep cs)
      | cons seg segs =>
        rw [hs] at ih
        cases segs with
        | nil =>
          simp only [List.map_cons, List.map_nil, JoinSep] at ih ⊢
          rw [← ih]
        | cons s2 ss =>
          simp only [List.map_cons, JoinSep, String.data_append] at ih ⊢
          rw [← ih]
          rfl

theorem Split_of_not_list (s : String) (hs : isList s = false) :
    Split s PathListSeparator = [s] := by
  have hmem : PathListSeparator ∉ s.data := by
    intro hm
    have := (isList_iff s).mpr hm
    rw [hs] at this
    exact absurd this (by simp)
  unfold Split
  rw [splitChars_of_not_mem _ _ hmem]
  rfl

/-- C12: for every string `s`, `path{s}.split()` returns one more path than `s` has
occurrences of the path-list separator; the segments hold no separator and, concatenated in
order with the separator between them, give back `s` exactly, so they are the segments of
`s` from left to right with empty segments kept.  A string without separator yields the
one-element list of itself, and the empty string yields the list of the empty string. -/
theorem split_segments (s : String) :
    (path.split ⟨s⟩).length = s.data.count PathListSeparator + 1 ∧
    JoinSep ((path.split ⟨s⟩).map path.value) PathListSeparator = s ∧
    (∀ seg ∈ path.split ⟨s⟩, isList seg.value = false) ∧
    (isList s = false → path.split ⟨s⟩ = [⟨s⟩]) ∧
    path.split ⟨""⟩ = [⟨""⟩] := by
  have hmap : (path.split ⟨s⟩).map path.value = Split s PathListSeparator := by
    rw [split_eq_map, List.map_map]
    simp [Function.comp_def]
  refine ⟨?_, ?_, ?_, ?_, ?_⟩
  · rw [split_eq_map, List.length_map]
    unfold Split
    rw [List.length_map, splitChars_length]
  · rw [hmap]
    unfold Split
    have hd := JoinSep_splitChars PathListSeparator s.data
    cases hj : JoinSep ((splitChars PathListSeparator s.data).map String.mk)
      PathListSeparator with
    | mk l =>
      rw [hj] at hd
      simp only at hd
      rw [hd]
  · intro seg hseg
    rw [split_eq_map, List.mem_map] at hseg
    obtain ⟨v, hv, rfl⟩ := hseg
    unfold Split at hv
    rw [List.mem_map] at hv
    obtain ⟨cs, hcs, rfl⟩ := hv
    cases hl : isList (String.mk cs) with
    | false => rfl
    | true =>
      have := (isList_iff _).mp hl
      exact absurd this (splitChars_no_sep _ _ cs hcs)
  · intro hs
    rw [split_eq_map, Split_of_not_list s hs]
    rfl
  · decide

theorem split_segments_witness :
    isList "/home" = false ∧
    path.split ⟨"/home"⟩ = [⟨"/home"⟩] ∧
    (path.split ⟨"/usr/local/share/:/usr/share/"⟩).length
      = "/usr/local/share/:/usr/share/".data.count PathListSeparator + 1 ∧
    JoinSep ((path.split ⟨"/a::/b:"⟩).map path.value) PathListSeparator = "/a::/b:" :=
  ⟨by decide, (split_segments "/home").2.2.2.1 (by decide),
    (split_segments "/usr/local/share/:/usr/share/").1, (split_segments "/a::/b:").2.1⟩

/-! ## Filtering -/

/-- C13: for every list of paths and every non-empty list of filters, `applyFilter` returns
exactly the sub-sequence of the paths whose value satisfies every filter, in the original
order and with duplicates kept.  Every returned path satisfies each filter, no path that
satisfies all filters is dropped, and with the filters `isAbsolute` and `isExist` every
returned path is absolute and exists. -/
theorem applyFilter_keeps_exactly_passing (paths : List path) (filters : List filter)
    (hne : filters ≠ []) :
    applyFilter paths filters
      = paths.filter (fun p => filters.all (fun f => f p.value)) ∧
    (applyFilter paths filters).Sublist paths ∧
    (∀ p ∈ applyFilter paths filters, ∀ f ∈ filters, f p.value = true) ∧
    (∀ p ∈ paths, (∀ f ∈ filters, f p.value = true) → p ∈ applyFilter paths filters) ∧
    (∀ h : Host, ∀ p ∈ applyFilter paths [isAbsolute, isExist h],
      isAbsolute p.value = true ∧ isExist h p.value = true) := by
  have heq := applyFilter_eq_filter paths filters hne
  refine ⟨heq, ?_, ?_, ?_, ?_⟩
  · rw [heq]
    exact List.filter_sublist paths
  · intro p hp f hf
    rw [heq, List.mem_filter, List.all_eq_true] at hp
    exact hp.2 f hf
  · intro p hp hall
    rw [heq, List.mem_filter, List.all_eq_true]
    exact ⟨hp, hall⟩
  · intro h p hp
    rw [applyFilter_eq_filter paths _ (List.cons_ne_nil _ _), List.mem_filter] at hp
    simpa using hp.2

theorem applyFilter_keeps_exactly_passing_witness :
    ([isAbsolute] : List filter) ≠ [] ∧
    applyFilter [⟨"/"⟩, ⟨"/etc"⟩, ⟨"Documents"⟩, ⟨"/etc"⟩] [isAbsolute]
      = [⟨"/"⟩, ⟨"/etc"⟩, ⟨"/etc"⟩] :=
  ⟨List.cons_ne_nil _ _,
    (applyFilter_keeps_exactly_passing [⟨"/"⟩, ⟨"/etc"⟩, ⟨"Documents"⟩, ⟨"/etc"⟩]
      [isAbsolute] (List.cons_ne_nil _ _)).1.trans (by decide)⟩

/-- C14: for every list of paths, `applyFilter` called with zero filters returns the input
sequence unchanged: the same elements in the same order, hence of the same length. -/
theorem applyFilter_no_filter (paths : List path) :
    applyFilter paths [] = paths ∧
    (applyFilter paths []).length = paths.length ∧
    applyFilter ([] : List path) [] = [] ∧
    applyFilter [⟨"/"⟩, ⟨"/etc"⟩, ⟨"/usr/bin"⟩, ⟨".."⟩, ⟨"../Documents"⟩] []
      = [⟨"/"⟩, ⟨"/etc"⟩, ⟨"/usr/bin"⟩, ⟨".."⟩, ⟨"../Documents"⟩] :=
  ⟨rfl, rfl, rfl, rfl⟩

/-! ## Existence -/

/-- C15, evaluated on a host where `/etc/passwd` is a regular file: the stat call on
`/etc/passwd/x` fails, with an error that is not `os.ErrNotExist`, and no entry exists there,
yet `isExist` returns `true`. -/
theorem isExist_true_where_stat_fails :
    hostNotDir.stat "/etc/passwd/x" = StatResult.otherError ∧
    ¬ entryExists hostNotDir "/etc/passwd/x" ∧
    isExist hostNotDir "/etc/passwd/x" = true ∧
    isExist hostNotDir "/etc/passwd" = true ∧
    isExist hostNotDir "/user" = false := by
  decide

/-! ## The list branch of the search -/

theorem candidates_eq_splitAll (pth : String) (dirs : List String) :
    candidates pth dirs = candidatesSplitAll pth dirs := by
  induction dirs with
  | nil => rfl
  | cons d ds ih =>
    unfold candidates candidatesSplitAll
    rw [ih]
    by_cases hc : Contains d PathListSeparator = true
    · rw [if_pos hc]
    · rw [if_neg hc]
      have hl : isList d = false := by
        simp [isList, hc]
      rw [Split_of_not_list d hl]
      rfl

/-- C16: the `isList` branch of `find` preserves behaviour: for every relative path and every
list of base-directory strings, `find` returns what the simpler search returns that splits
every base-directory string on the path-list separator unconditionally, joins the relative
path onto each segment and takes the first absolute and existing result.  Indeed `isList s`
holds exactly when `s` contains the separator, and the split of a string without separator
is the one-element list of that string. -/
theorem find_eq_findSplitAll (h : Host) (pth : String) (dirs : List String) :
    find h pth dirs = findSplitAll h pth dirs ∧
    (∀ s : String, isList s = true ↔ PathListSeparator ∈ s.data) ∧
    (∀ s : String, isList s = false → path.split ⟨s⟩ = [⟨s⟩]) := by
  refine ⟨?_, isList_iff, ?_⟩
  · rw [find_eq, candidates_eq_splitAll]
    rfl
  · intro s hs
    rw [split_eq_map, Split_of_not_list s hs]
    rfl

theorem find_eq_findSplitAll_witness :
    find hostSearch "f" ["/home/user/.config", "/a:/b"]
      = findSplitAll hostSearch "f" ["/home/user/.config", "/a:/b"] ∧
    findSplitAll hostSearch "f" ["/home/user/.config", "/a:/b"] = ("/b/f", true) ∧
    isList "/etc/xdg" = false ∧
    path.split ⟨"/etc/xdg"⟩ = [⟨"/etc/xdg"⟩] :=
  ⟨(find_eq_findSplitAll hostSearch "f" ["/home/user/.config", "/a:/b"]).1, by decide,
    by decide, (find_eq_findSplitAll hostSearch "f" []).2.2 "/etc/xdg" (by decide)⟩

/-! ## Where a returned path comes from -/

theorem candidates_eq_map_segments (pth : String) (dirs : List String) :
    candidates pth dirs = (segments dirs).map (fun s => Join s pth) := by
  induction dirs with
  | nil => rfl
  | cons d ds ih =>
    unfold candidates segments
    rw [ih, List.map_append]
    by_cases hc : Contains d PathListSeparator = true
    · rw [if_pos hc, if_pos hc]
    · rw [if_neg hc, if_neg hc]
      rfl

/-- Every path `Find` returns is the join of the path argument onto a segment of the kind's
base directories, and that segment is absolute, or it is empty and the path argument itself
is absolute. -/
theorem Find_result_from_segment (h : Host) (d : Nat) (pth r : String)
    (hf : Find h d pth = (r, true)) :
    ∃ seg ∈ segments (baseDirs h d), r = Join seg pth ∧
      (isAbsolute seg = true ∨ (seg = "" ∧ isAbsolute pth = true)) := by
  by_cases hd : d ≤ 4
  · rw [Find_eq_find h d pth hd, find_eq] at hf
    obtain ⟨pre, post, h1, h2, _⟩ := firstSurvivor_found h _ r hf
    have hmem : r ∈ candidates pth (baseDirs h d) := by
      rw [h1]
      simp
    rw [candidates_eq_map_segments, List.mem_map] at hmem
    obtain ⟨seg, hseg, hr⟩ := hmem
    refine ⟨seg, hseg, hr.symm, ?_⟩
    have ha := h2.1
    rw [← hr] at ha
    exact (isAbsolute_Join seg pth).mp ha
  · rw [Find_other h d pth (Nat.lt_of_not_le hd)] at hf
    exact absurd (congrArg Prod.snd hf) (by simp)

/-- C17, evaluated on a host where `XDG_CONFIG_DIRS` is `/a:` and only `/etc/passwd` exists:
`Find Config "/etc/passwd"` returns `/etc/passwd`, the join of the path argument onto the
trailing empty segment of the list; no absolute segment of the base directories produces
that path. -/
theorem Find_returns_join_onto_empty_segment :
    ConfigDirs hostEmptySegment = "/a:" ∧
    segments (baseDirs hostEmptySegment Config) = ["/home/user/.config", "/a", ""] ∧
    Find hostEmptySegment Config "/etc/passwd" = ("/etc/passwd", true) ∧
    Join "" "/etc/passwd" = "/etc/passwd" ∧
    (∀ seg ∈ segments (baseDirs hostEmptySegment Config),
      isAbsolute seg = true → Join seg "/etc/passwd" ≠ "/etc/passwd") := by
  decide

/-! ## The two results of the search -/

theorem firstSurvivor_agree (h : Host) (l : List String) :
    (firstSurvivor h l).2 = true ↔ (firstSurvivor h l).1 ≠ "" := by
  induction l with
  | nil => simp [firstSurvivor]
  | cons a as ih =>
    by_cases ha : isAbsolute a = true ∧ isExist h a = true
    · rw [firstSurvivor, if_pos ha]
      have hne : a ≠ "" := by
        intro he
        rw [he] at ha
        exact absurd ha.1 (by decide)
      simp [hne]
    · rw [firstSurvivor, if_neg ha]
      exact ih

/-- C18: the two results of `Find` agree, for every kind value, path, environment and file
system: the boolean is true if and only if the string is non-empty.  A found result is never
the empty string and a result that is not found is always the empty string. -/
theorem Find_found_iff_nonempty (h : Host) (d : dir) (pth : String) :
    ((Find h d pth).2 = true ↔ (Find h d pth).1 ≠ "") ∧
    (∀ r : String, Find h d pth = (r, true) → r ≠ "") ∧
    (∀ r : String, Find h d pth = (r, false) → r = "") := by
  have key : (Find h d pth).2 = true ↔ (Find h d pth).1 ≠ "" := by
    by_cases hd : d ≤ 4
    · rw [Find_eq_find h d pth hd, find_eq]
      exact firstSurvivor_agree h _
    · rw [Find_other h d pth (Nat.lt_of_not_le hd)]
      simp
  refine ⟨key, ?_, ?_⟩
  · intro r hr
    have := key.mp (by rw [hr])
    rw [hr] at this
    exact this
  · intro r hr
    by_contra hne
    have := key.mpr (by rw [hr]; exact hne)
    rw [hr] at this
    exact absurd this (by simp)

theorem Find_found_iff_nonempty_witness :
    Find hostSearch Config "f" = ("/b/f", true) ∧ ("/b/f" : String) ≠ "" ∧
    Find hostBare Cache "app/data.db" = ("", false) :=
  ⟨by decide, (Find_found_iff_nonempty hostSearch Config "f").2.1 "/b/f" (by decide),
    by decide⟩

/-! ## Kind values outside the declared constants -/

/-- C19: for every kind value from 5 to 255, the values of the 8-bit type `dir` outside the
five declared constants, `Find` returns the empty string and `false` for every path,
environment and file system; the function is total, so there is no failure. -/
theorem Find_undeclared_kind (h : Host) (d : Nat) (pth : String)
    (hlo : 5 ≤ d) (hhi : d ≤ 255) :
    Find h d pth = ("", false) ∧
    d ∉ [Data, Config, State, Cache, Runtime] := by
  refine ⟨Find_other h d pth (by omega), ?_⟩
  simp only [Data, Config, State, Cache, Runtime, List.mem_cons, List.mem_singleton,
    List.not_mem_nil, or_false, not_or]
  omega

theorem Find_undeclared_kind_witness :
    (5 ≤ 5 ∧ 5 ≤ 255) ∧ (5 ≤ 255 ∧ 255 ≤ 255) ∧
    Find hostSearch 5 "f" = ("", false) ∧
    Find hostSearch 255 "f" = ("", false) :=
  ⟨by decide, by decide,
    (Find_undeclared_kind hostSearch 5 "f" (by decide) (by decide)).1,
    (Find_undeclared_kind hostSearch 255 "f" (by decide) (by decide)).1⟩

end xdg
